import Mathlib

/-!
Verification of the half-stack JSON core (`json/src/{value,number,parser,error}.rs`)
against its natural-language specification.

The parser is embedded shallowly: the input is a list of byte-characters, the
cursor is an explicit `Nat` position, and each Rust method becomes a Lean
function on `(input, pos)`.  Rust's `todo!` / panicking control flow is made
explicit through the `POut` outcome type, and recursion through the
`parse -> parse_array -> parse` cycle is made total with an explicit fuel
parameter (real recursion depth is bounded by the input length, so the fuel
chosen by `jsonParse` is never exhausted on the runs we reason about).
-/

namespace HalfStack

/-! ### Characters

The Rust parser indexes `input.as_bytes()[pos] as char`, i.e. it works on
bytes reinterpreted as code points 0..255.  We model the input as a list of
such characters.  `rustIsWhitespace` is Rust's `char::is_whitespace`
restricted to the byte range (Unicode White_Space code points below 0x100). -/

def rustIsWhitespace (c : Char) : Bool :=
  c = ' ' || c = '\t' || c = '\n' || c = '\x0b' || c = '\x0c' || c = '\r' ||
  c.toNat = 0x85 || c.toNat = 0xa0

/-- `skip` from `Parser::skip_whitespace`: whitespace or a comma. -/
def isSkipChar (c : Char) : Bool :=
  rustIsWhitespace c || c = ','

def isAsciiDigit (c : Char) : Bool :=
  '0' ≤ c && c ≤ '9'

/-- `is_digit` from `Parser::parse_number`: digits plus `-` and `.`. -/
def isNumChar (c : Char) : Bool :=
  isAsciiDigit c || c = '-' || c = '.'

/-! ### The Number data model (`number.rs`)

`f64` values are represented by their 64-bit pattern (a `Nat` below `2^64`);
this is exactly the information `to_bits` exposes and suffices for the
equality/hash claims.  IEEE `==` on two doubles holds iff neither is a NaN and
either the bit patterns coincide or both are zeros (`+0.0`/`-0.0`). -/

inductive Number where
  | uint (n : Nat)
  | int (n : Int)
  | float (bits : Nat)
deriving DecidableEq

def f64ExpBits (bits : Nat) : Nat := bits / 2 ^ 52 % 2 ^ 11

def f64MantissaBits (bits : Nat) : Nat := bits % 2 ^ 52

def f64IsNaN (bits : Nat) : Bool :=
  f64ExpBits bits = 2 ^ 11 - 1 && f64MantissaBits bits ≠ 0

/-- The two zero bit patterns `+0.0` and `-0.0`. -/
def f64IsZero (bits : Nat) : Bool :=
  bits = 0 || bits = 2 ^ 63

/-- IEEE-754 `==` on doubles, on bit patterns: Rust's `l0 == r0` for `f64`. -/
def f64Eq (a b : Nat) : Bool :=
  !f64IsNaN a && !f64IsNaN b && (a = b || (f64IsZero a && f64IsZero b))

def f64NegZeroBits : Nat := 2 ^ 63

/-- `impl PartialEq for Number`: variant-sensitive, floats via IEEE `==`. -/
def numberEq (a b : Number) : Bool :=
  match a, b with
  | .uint x, .uint y => x = y
  | .int x, .int y => x = y
  | .float x, .float y => f64Eq x y
  | _, _ => false

/-- Two's-complement 64-bit image of an `i64`, the bytes its `Hash` feeds. -/
def i64Bits (x : Int) : Nat := (x % 2 ^ 64).toNat

/-- `impl Hash for Number`: the data fed to the hasher, as one 64-bit word —
integers feed their raw value, floats feed `to_bits`. -/
def numberHash (a : Number) : Nat :=
  match a with
  | .uint x => x
  | .int x => i64Bits x
  | .float bits => bits

/-! ### Rust integer/float `from_str` models

`u64::from_str` / `i64::from_str`: an optional sign (only `+` for `u64`,
`+`/`-` for `i64`) followed by one or more ASCII digits, rejecting
out-of-range values.  `f64::from_str` is modelled by its accepting grammar
(`[+-]? (inf|infinity|nan | digits [. digits?]? | . digits) ([eE][+-]?digits)?`,
case-insensitive for the named forms); the resulting bit pattern is not
modelled numerically (`f64BitsOfText` is an arbitrary fixed encoding) and no
theorem below depends on it. -/

def digitsVal (ds : List Char) : Nat :=
  ds.foldl (fun acc c => acc * 10 + (c.toNat - '0'.toNat)) 0

def rustParseU64 (s : List Char) : Option Nat :=
  let t := match s with
    | '+' :: rest => rest
    | _ => s
  if t ≠ [] && t.all isAsciiDigit && digitsVal t < 2 ^ 64 then
    some (digitsVal t)
  else
    none

def rustParseI64 (s : List Char) : Option Int :=
  let (neg, t) : Bool × List Char := match s with
    | '+' :: rest => (false, rest)
    | '-' :: rest => (true, rest)
    | _ => (false, s)
  if t ≠ [] && t.all isAsciiDigit then
    if neg then
      if digitsVal t ≤ 2 ^ 63 then some (-(digitsVal t : Int)) else none
    else
      if digitsVal t < 2 ^ 63 then some ((digitsVal t : Int)) else none
  else
    none

def asciiLower (c : Char) : Char :=
  if 'A' ≤ c && c ≤ 'Z' then Char.ofNat (c.toNat + 32) else c

def f64NamedForm (t : List Char) : Bool :=
  let l := t.map asciiLower
  l = ('i' :: 'n' :: 'f' :: []) ||
  l = ('i' :: 'n' :: 'f' :: 'i' :: 'n' :: 'i' :: 't' :: 'y' :: []) ||
  l = ('n' :: 'a' :: 'n' :: [])

/-- Mantissa of a decimal float literal: digits with at most one dot,
at least one digit. -/
def f64Mantissa (t : List Char) : Bool :=
  t.all (fun c => isAsciiDigit c || c = '.') &&
  t.count '.' ≤ 1 &&
  t.any isAsciiDigit

def f64Exponent (t : List Char) : Bool :=
  let u := match t with
    | '+' :: rest => rest
    | '-' :: rest => rest
    | _ => t
  u ≠ [] && u.all isAsciiDigit

def isExpChar (c : Char) : Bool := c = 'e' || c = 'E'

def f64Grammar (s : List Char) : Bool :=
  let t := match s with
    | '+' :: rest => rest
    | '-' :: rest => rest
    | _ => s
  f64NamedForm t ||
  (let m := t.takeWhile (fun c => !isExpChar c)
   match t.dropWhile (fun c => !isExpChar c) with
   | [] => f64Mantissa m
   | _ :: e => f64Mantissa m && f64Exponent e)

/-- Fixed injective encoding standing in for decimal-to-double conversion. -/
def f64BitsOfText (s : List Char) : Nat :=
  s.foldl (fun acc c => acc * 257 + c.toNat + 1) 0 % 2 ^ 64

def rustParseF64 (s : List Char) : Option Nat :=
  if f64Grammar s then some (f64BitsOfText s) else none

/-! ### Errors (`error.rs`) -/

inductive ParseNumberError where
  | parseIntError
  | parseFloatError
deriving DecidableEq

inductive Error where
  | unexpectedChar (pos : Nat)
  | invalidNumber (e : ParseNumberError)
  | unexpectedEnd (pos : Nat)
  | invalidEscape (c : Char)
deriving DecidableEq

/-- `impl FromStr for Number` (`number.rs`): dot means float, then a leading
minus means `i64`, otherwise `u64`; failures wrap into `InvalidNumber`. -/
def numberFromStr (s : List Char) : Except Error Number :=
  if s.contains '.' then
    match rustParseF64 s with
    | some f => .ok (.float f)
    | none => .error (.invalidNumber .parseFloatError)
  else if s.head? = some '-' then
    match rustParseI64 s with
    | some i => .ok (.int i)
    | none => .error (.invalidNumber .parseIntError)
  else
    match rustParseU64 s with
    | some n => .ok (.uint n)
    | none => .error (.invalidNumber .parseIntError)

deriving instance DecidableEq for Except

/-! ### The Value data model (`value.rs`)

`BTreeMap<String, Value>` is modelled as an association list kept sorted by
key (byte-lexicographic order), the order a `BTreeMap` iterates in. -/

inductive Value where
  | null
  | bool (b : Bool)
  | number (n : Number)
  | str (s : List Char)
  | arr (xs : List Value)
  | obj (kvs : List (List Char × Value))

mutual

/-- Structural equality on `Value` (Rust's derived `PartialEq` restricted to
numbers compared by variant and payload; note `number.rs` floats use IEEE
`==`, captured separately by `numberEq`). -/
def valueBeq : Value → Value → Bool
  | .null, .null => true
  | .bool a, .bool b => a = b
  | .number a, .number b => a = b
  | .str a, .str b => a = b
  | .arr a, .arr b => arrBeq a b
  | .obj a, .obj b => objBeq a b
  | _, _ => false

def arrBeq : List Value → List Value → Bool
  | [], [] => true
  | x :: xs, y :: ys => valueBeq x y && arrBeq xs ys
  | _, _ => false

def objBeq : List (List Char × Value) → List (List Char × Value) → Bool
  | [], [] => true
  | (k, v) :: xs, (k', v') :: ys => k = k' && valueBeq v v' && objBeq xs ys
  | _, _ => false

end

mutual

theorem valueBeq_iff : ∀ a b : Value, valueBeq a b = true ↔ a = b
  | .null, .null => by simp [valueBeq]
  | .bool a, .bool b => by simp [valueBeq]
  | .number a, .number b => by simp [valueBeq]
  | .str a, .str b => by simp [valueBeq]
  | .arr a, .arr b => by
    simp only [valueBeq, Value.arr.injEq]
    exact arrBeq_iff a b
  | .obj a, .obj b => by
    simp only [valueBeq, Value.obj.injEq]
    exact objBeq_iff a b
  | .null, .bool _ | .null, .number _ | .null, .str _ | .null, .arr _
  | .null, .obj _ | .bool _, .null | .bool _, .number _ | .bool _, .str _
  | .bool _, .arr _ | .bool _, .obj _ | .number _, .null | .number _, .bool _
  | .number _, .str _ | .number _, .arr _ | .number _, .obj _ | .str _, .null
  | .str _, .bool _ | .str _, .number _ | .str _, .arr _ | .str _, .obj _
  | .arr _, .null | .arr _, .bool _ | .arr _, .number _ | .arr _, .str _
  | .arr _, .obj _ | .obj _, .null | .obj _, .bool _ | .obj _, .number _
  | .obj _, .str _ | .obj _, .arr _ => by simp [valueBeq]

theorem arrBeq_iff : ∀ a b : List Value, arrBeq a b = true ↔ a = b
  | [], [] => by simp [arrBeq]
  | x :: xs, y :: ys => by
    simp only [arrBeq, Bool.and_eq_true, List.cons.injEq]
    exact and_congr (valueBeq_iff x y) (arrBeq_iff xs ys)
  | [], _ :: _ => by simp [arrBeq]
  | _ :: _, [] => by simp [arrBeq]

theorem objBeq_iff : ∀ a b : List (List Char × Value), objBeq a b = true ↔ a = b
  | [], [] => by simp [objBeq]
  | (k, v) :: xs, (k', v') :: ys => by
    simp only [objBeq, Bool.and_eq_true, List.cons.injEq, Prod.mk.injEq,
      decide_eq_true_eq, and_assoc]
    exact and_congr Iff.rfl (and_congr (valueBeq_iff v v') (objBeq_iff xs ys))
  | [], _ :: _ => by simp [objBeq]
  | _ :: _, [] => by simp [objBeq]

end

instance : DecidableEq Value :=
  fun a b => decidable_of_iff _ (valueBeq_iff a b)

/-- Byte-lexicographic strict order on keys (Rust `String` `Ord`). -/
def keyLt : List Char → List Char → Bool
  | [], [] => false
  | [], _ :: _ => true
  | _ :: _, [] => false
  | a :: as', b :: bs' =>
    if a < b then true else if b < a then false else keyLt as' bs'

/-- `BTreeMap::insert` on the sorted association list: keeps sortedness,
overwrites an existing binding of the same key (last write wins). -/
def btreeInsert (k : List Char) (v : Value) :
    List (List Char × Value) → List (List Char × Value)
  | [] => [(k, v)]
  | (k', v') :: rest =>
    if keyLt k k' then (k, v) :: (k', v') :: rest
    else if k = k' then (k, v) :: rest
    else (k', v') :: btreeInsert k v rest

/-! ### Parser outcomes

Rust can return `Ok`, return `Err`, or panic (`todo!` in `Parser::parse`);
`nofuel` is the artifact of the fuel parameter and is unreachable for the
fuel budgets used below. -/

inductive POut (α : Type) where
  | ok (a : α)
  | err (e : Error)
  | panic
  | nofuel
deriving DecidableEq

/-! ### Parser primitives (`parser.rs`) -/

/-- `Parser::char`: `input.as_bytes()[pos] as char`.  All uses we reason
about are in bounds; out-of-bounds reads default to NUL. -/
def charAt (input : List Char) (pos : Nat) : Char :=
  input.getD pos (Char.ofNat 0)

/-- Characters consumed by the `skip_whitespace` loop when the cursor has
this list ahead of it: all leading skippable characters plus the one
non-skippable character that stops the loop (if the input does not run out
first). -/
def skipWsConsumed : List Char → Nat
  | [] => 0
  | c :: cs => if isSkipChar c then 1 + skipWsConsumed cs else 1

/-- `Parser::skip_whitespace`: run the loop, then step back one. -/
def skipWhitespace (input : List Char) (pos : Nat) : Nat :=
  pos + skipWsConsumed (input.drop pos) - 1

/-- `Parser::require_chars`.  Note the Rust loop advances before comparing,
so a mismatch at index `i` is reported at position `i + 1`. -/
def requireChars (expected : List Char) (input : List Char) (pos : Nat) :
    Except Error Nat :=
  match expected with
  | [] => .ok pos
  | e :: es =>
    if pos ≥ input.length then .error (.unexpectedEnd pos)
    else if charAt input pos ≠ e then .error (.unexpectedChar (pos + 1))
    else requireChars es input (pos + 1)

/-- `Parser::parse_null`. -/
def parseNull (input : List Char) (pos : Nat) : Except Error (Value × Nat) :=
  match requireChars ('n' :: 'u' :: 'l' :: 'l' :: []) input pos with
  | .ok pos' => .ok (.null, pos')
  | .error e => .error e

/-- `Parser::parse_bool`. -/
def parseBool (input : List Char) (pos : Nat) : Except Error (Value × Nat) :=
  let expected := charAt input pos
  if expected = 't' then
    match requireChars ('r' :: 'u' :: 'e' :: []) input (pos + 1) with
    | .ok pos' => .ok (.bool true, pos')
    | .error e => .error e
  else if expected = 'f' then
    match requireChars ('a' :: 'l' :: 's' :: 'e' :: []) input (pos + 1) with
    | .ok pos' => .ok (.bool false, pos')
    | .error e => .error e
  else
    .error (.unexpectedChar (pos + 1))

/-- Characters consumed by the `parse_number` scan loop: like
`skip_whitespace`, the loop calls `next()` before testing, so the first
non-number character is also consumed (when the input does not run out
first) — and, unlike `skip_whitespace`, nothing steps back afterwards. -/
def numConsumed : List Char → Nat
  | [] => 0
  | c :: cs => if isNumChar c then 1 + numConsumed cs else 1

/-- The substring `parse_number` captures and hands to `Number::from_str`:
`&input[start..self.pos]` after the scan loop. -/
def numberSlice (input : List Char) (pos : Nat) : List Char :=
  (input.drop pos).take (numConsumed (input.drop pos))

/-- `Parser::parse_number`. -/
def parseNumber (input : List Char) (pos : Nat) : Except Error (Value × Nat) :=
  match numberFromStr (numberSlice input pos) with
  | .ok n => .ok (.number n, pos + numConsumed (input.drop pos))
  | .error e => .error e

/-- The forward scan of `Parser::parse_string`: number of characters
consumed before an unescaped quote (or the whole list).  A backslash sets
the escape flag for the next character; any other character clears it — in
particular a second consecutive backslash leaves the flag set. -/
def scanStr : List Char → Bool → Nat
  | [], _ => 0
  | c :: cs, esc =>
    if c = '"' && !esc then 0 else 1 + scanStr cs (c = '\\')

/-- The `unescape` pass inside `Parser::parse_string`.  A trailing
backslash (escape flag still set at the end) is silently dropped, as in the
Rust loop. -/
def unescapeList : List Char → Bool → Except Error (List Char)
  | [], _ => .ok []
  | c :: cs, true =>
    match c with
    | '"' => (unescapeList cs false).map (fun out => '"' :: out)
    | '\\' => (unescapeList cs false).map (fun out => '\\' :: out)
    | '/' => (unescapeList cs false).map (fun out => '/' :: out)
    | 'b' => (unescapeList cs false).map (fun out => '\x08' :: out)
    | 'f' => (unescapeList cs false).map (fun out => '\x0c' :: out)
    | 'n' => (unescapeList cs false).map (fun out => '\x0a' :: out)
    | 'r' => (unescapeList cs false).map (fun out => '\x0d' :: out)
    | 't' => (unescapeList cs false).map (fun out => '\x09' :: out)
    | _ => .error (.invalidEscape c)
  | c :: cs, false =>
    if c = '\\' then unescapeList cs true
    else (unescapeList cs false).map (fun out => c :: out)

/-- `Parser::parse_string`, returning the unescaped content and the new
cursor.  The end-of-input check succeeds whenever the raw final character
of the input is a quote — even when that quote was consumed under an active
escape, or is the opening quote itself. -/
def parseString (input : List Char) (pos : Nat) :
    Except Error (List Char × Nat) :=
  let start := pos + 1
  let n := scanStr (input.drop start) false
  let stop := start + n
  if stop = input.length && charAt input (stop - 1) ≠ '"' then
    .error (.unexpectedEnd stop)
  else
    match unescapeList ((input.drop start).take n) false with
    | .ok s => .ok (s, stop + 1)
    | .error e => .error e

/-- The container pre-scan of `parse_array` / `parse_object`: walk the list
counting `openC`/`closeC` depth from the given start depth, returning the
number of characters consumed (the scan consumes the closing delimiter)
and the final depth. -/
def prescan (openC closeC : Char) : List Char → Nat → Nat × Nat
  | [], depth => (0, depth)
  | c :: cs, depth =>
    if depth = 0 then (0, depth)
    else
      let depth' := if c = openC then depth + 1
        else if c = closeC then depth - 1 else depth
      let r := prescan openC closeC cs depth'
      (r.1 + 1, r.2)

/-! ### The recursive parser (`Parser::parse` and the container loops) -/

/-- Lift the error-only primitives into the outcome type. -/
def ofExcept (x : Except Error (Value × Nat)) : POut (Value × Nat) :=
  match x with
  | .ok a => .ok a
  | .error e => .err e

mutual

/-- `Parser::parse`: dispatch on the first non-skippable character.  The
`[` and `\x7b` arms inline `Parser::parse_array` / `Parser::parse_object`
(pre-scan for the matching close delimiter, reset the cursor, then run the
element/member loop).  The final arm is Rust's `todo!("Error {x}")`, i.e. a
panic. -/
def parse : Nat → List Char → Nat → POut (Value × Nat)
  | 0, _, _ => .nofuel
  | fuel + 1, input, pos =>
    if input.length = 0 then .err (.unexpectedEnd pos)
    else
      let pos := skipWhitespace input pos
      let chr := charAt input pos
      if chr = 'n' then ofExcept (parseNull input pos)
      else if chr = 't' || chr = 'f' then ofExcept (parseBool input pos)
      else if isAsciiDigit chr || chr = '-' then ofExcept (parseNumber input pos)
      else if chr = '"' then
        match parseString input pos with
        | .ok (s, pos') => .ok (.str s, pos')
        | .error e => .err e
      else if chr = '[' then
        let start := pos + 1
        let r := prescan '[' ']' (input.drop start) 1
        let stop := start + r.1
        if stop = input.length && r.2 ≠ 0 then .err (.unexpectedEnd stop)
        else
          match arrLoop fuel input stop start [] with
          | .ok (xs, pos') => .ok (.arr xs, pos')
          | .err e => .err e
          | .panic => .panic
          | .nofuel => .nofuel
      else if chr = '\x7b' then
        let start := pos + 1
        let r := prescan '\x7b' '\x7d' (input.drop start) 1
        let stop := start + r.1
        if stop = input.length && r.2 ≠ 0 then .err (.unexpectedEnd stop)
        else
          match objLoop fuel input stop start [] with
          | .ok (kvs, pos') => .ok (.obj kvs, pos')
          | .err e => .err e
          | .panic => .panic
          | .nofuel => .nofuel
      else .panic
termination_by structural fuel => fuel

/-- The element loop of `parse_array` (`while pos < end.saturating_sub(1)`),
returning the collected elements and the final cursor (the loop's exit
position plus one). -/
def arrLoop : Nat → List Char → Nat → Nat → List Value →
    POut (List Value × Nat)
  | 0, _, _, _, _ => .nofuel
  | fuel + 1, input, stop, pos, acc =>
    if pos < stop - 1 then
      let pos := skipWhitespace input pos
      match parse fuel input pos with
      | .ok (v, pos') => arrLoop fuel input stop pos' (acc ++ [v])
      | .err e => .err e
      | .panic => .panic
      | .nofuel => .nofuel
    else .ok (acc, pos + 1)
termination_by structural fuel => fuel

/-- The member loop of `parse_object`: key string, `:` separator, value,
inserted into the map (last write wins). -/
def objLoop : Nat → List Char → Nat → Nat → List (List Char × Value) →
    POut (List (List Char × Value) × Nat)
  | 0, _, _, _, _ => .nofuel
  | fuel + 1, input, stop, pos, acc =>
    if pos < stop - 1 then
      let pos := skipWhitespace input pos
      match parseString input pos with
      | .error e => .err e
      | .ok (key, pos₁) =>
        let pos₂ := skipWhitespace input pos₁
        match requireChars (':' :: []) input pos₂ with
        | .error e => .err e
        | .ok pos₃ =>
          let pos₄ := skipWhitespace input pos₃
          match parse fuel input pos₄ with
          | .ok (v, pos₅) => objLoop fuel input stop pos₅ (btreeInsert key v acc)
          | .err e => .err e
          | .panic => .panic
          | .nofuel => .nofuel
    else .ok (acc, pos + 1)
termination_by structural fuel => fuel

end

/-- `Value::from_str`: run the parser from position 0 with ample fuel
(recursive calls strictly advance an input-bounded cursor, so
`2 * length + 4` can never be exhausted). -/
def jsonParse (input : List Char) : POut Value :=
  match parse (2 * input.length + 4) input 0 with
  | .ok (v, _) => .ok v
  | .err e => .err e
  | .panic => .panic
  | .nofuel => .nofuel

/-! ### The serializer (`impl Display for Value`, `value.rs`)

The `escape` helper chains eight `str::replace` calls; since no replacement
output contains a later pattern and only the backslash pattern occurs in
replacement outputs (introduced after its own pass has run), the chain acts
independently on each input character, which is how `escapeChar` renders it. -/

def escapeChar (c : Char) : List Char :=
  if c = '\\' then '\\' :: '\\' :: []
  else if c = '"' then '\\' :: '"' :: []
  else if c = '/' then '\\' :: '/' :: []
  else if c = '\x08' then '\\' :: 'b' :: []
  else if c = '\x0c' then '\\' :: 'f' :: []
  else if c = '\x0a' then '\\' :: 'n' :: []
  else if c = '\x0d' then '\\' :: 'r' :: []
  else if c = '\x09' then '\\' :: 't' :: []
  else c :: []

def escapeStr (s : List Char) : List Char :=
  (s.map escapeChar).flatten

/-- Decimal digits of a `Nat` (Rust's `u64` `Display`), via an auxiliary
with enough fuel for every digit. -/
def natDecAux : Nat → Nat → List Char → List Char
  | 0, _, acc => acc
  | fuel + 1, n, acc =>
    let acc' := Char.ofNat (n % 10 + 48) :: acc
    if n < 10 then acc' else natDecAux fuel (n / 10) acc'

def natDecChars (n : Nat) : List Char :=
  natDecAux (n + 1) n []

/-- Rust's `i64` `Display`: a minus sign for negatives, then the digits. -/
def intDecChars (i : Int) : List Char :=
  if i < 0 then '-' :: natDecChars (-i).toNat else natDecChars i.toNat

/-- `impl Display for Number`.  Rust's `f64` `Display` (shortest-roundtrip
decimal text) is not modelled numerically: the float arm is a placeholder
and no theorem below depends on its text. -/
def renderNumber : Number → List Char
  | .uint n => natDecChars n
  | .int i => intDecChars i
  | .float bits => 'f' :: natDecChars bits

mutual

/-- `impl Display for Value`: compact text, arrays and objects joined by
`,`, object entries in the map's (sorted) iteration order. -/
def render : Value → List Char
  | .null => 'n' :: 'u' :: 'l' :: 'l' :: []
  | .bool true => 't' :: 'r' :: 'u' :: 'e' :: []
  | .bool false => 'f' :: 'a' :: 'l' :: 's' :: 'e' :: []
  | .number n => renderNumber n
  | .str s => '"' :: (escapeStr s ++ ('"' :: []))
  | .arr xs => '[' :: (renderArr xs ++ (']' :: []))
  | .obj kvs => '\x7b' :: (renderObj kvs ++ ('\x7d' :: []))

/-- The `,`-join over array elements. -/
def renderArr : List Value → List Char
  | [] => []
  | x :: [] => render x
  | x :: y :: rest => render x ++ (',' :: renderArr (y :: rest))

/-- The `,`-join over `"key":value` entries. -/
def renderObj : List (List Char × Value) → List Char
  | [] => []
  | (k, v) :: [] => '"' :: (escapeStr k ++ ('"' :: ':' :: render v))
  | (k, v) :: kv :: rest =>
    ('"' :: (escapeStr k ++ ('"' :: ':' :: render v))) ++
      (',' :: renderObj (kv :: rest))

end

/-- The text between one array element's end and the closing bracket:
empty when no elements remain, otherwise a comma and the remaining
elements' join. -/
def renderArrTail : List Value → List Char
  | [] => []
  | x :: xs => ',' :: renderArr (x :: xs)

/-- The object analogue of `renderArrTail`. -/
def renderObjTail : List (List Char × Value) → List Char
  | [] => []
  | kv :: kvs => ',' :: renderObj (kv :: kvs)

mutual

/-- Fuel bound for the parser: an upper bound on the nesting-and-element
recursion the element loops perform on this value's rendering. -/
def sizeVal : Value → Nat
  | .null => 1
  | .bool _ => 1
  | .number _ => 1
  | .str _ => 1
  | .arr xs => 1 + sizeArr xs
  | .obj kvs => 1 + sizeObj kvs

def sizeArr : List Value → Nat
  | [] => 1
  | x :: xs => 1 + sizeVal x + sizeArr xs

def sizeObj : List (List Char × Value) → Nat
  | [] => 1
  | (_, v) :: kvs => 1 + sizeVal v + sizeObj kvs

end

/-- One step of the container pre-scan's depth bookkeeping. -/
def depthStep (openC closeC : Char) (x : Char) (depth : Nat) : Nat :=
  if x = openC then depth + 1 else if x = closeC then depth - 1 else depth

/-- Does the pre-scan's depth stay nonzero across this whole segment?  (If
so, the scan does not stop inside the segment.) -/
def staysOpen (openC closeC : Char) : List Char → Nat → Bool
  | [], _ => true
  | x :: xs, depth =>
    depthStep openC closeC x depth ≠ 0 &&
      staysOpen openC closeC xs (depthStep openC closeC x depth)

/-- The pre-scan depth after this segment. -/
def finalDepth (openC closeC : Char) : List Char → Nat → Nat
  | [], depth => depth
  | x :: xs, depth => finalDepth openC closeC xs (depthStep openC closeC x depth)

/-! ### Auxiliary predicates used by the theorems -/

/-- The final state of the escape flag after the string scan has consumed
this whole list: set exactly when the last consumed character was a
backslash. -/
def scanStrState : List Char → Bool → Bool
  | [], esc => esc
  | c :: cs, _ => scanStrState cs (c = '\\')

/-- Building a `BTreeMap` by inserting entries left to right. -/
def mapFromList (l : List (List Char × Value)) : List (List Char × Value) :=
  l.foldl (fun m kv => btreeInsert kv.1 kv.2 m) []

/-- String characters for which the codec is exercised without its known
defects: ASCII bytes that are not the backslash (the string scan keeps the
escape flag set across consecutive backslashes) and not one of the four
container delimiters (the container pre-scans count them even inside string
literals). -/
def safeChar (c : Char) : Bool :=
  c.toNat < 128 && c ≠ '\\' && c ≠ '[' && c ≠ ']' && c ≠ '\x7b' && c ≠ '\x7d'

def safeKey (s : List Char) : Bool :=
  s.all safeChar

mutual

/-- Trees on which the round-trip claim is settled positively: no numbers
(numbers inside containers capture their terminator character), safe
strings and keys, and canonically sorted, duplicate-free object entries
(the `BTreeMap` representation invariant). -/
def safeVal : Value → Bool
  | .null => true
  | .bool _ => true
  | .number _ => false
  | .str s => safeKey s
  | .arr xs => safeArr xs
  | .obj kvs => safeObj kvs

def safeArr : List Value → Bool
  | [] => true
  | x :: xs => safeVal x && safeArr xs

def safeObj : List (List Char × Value) → Bool
  | [] => true
  | (k, v) :: kvs =>
    safeKey k && safeVal v &&
    (match kvs with
     | [] => true
     | (k', _) :: _ => keyLt k k') &&
    safeObj kvs

end

mutual

/-- Values whose strings and keys contain no whitespace characters and
whose numbers are integers (the float `Display` text is not modelled). -/
def noWsVal : Value → Bool
  | .null => true
  | .bool _ => true
  | .number n => match n with
    | .float _ => false
    | _ => true
  | .str s => s.all (fun c => !rustIsWhitespace c)
  | .arr xs => noWsArr xs
  | .obj kvs => noWsObj kvs

def noWsArr : List Value → Bool
  | [] => true
  | x :: xs => noWsVal x && noWsArr xs

def noWsObj : List (List Char × Value) → Bool
  | [] => true
  | (k, v) :: kvs => k.all (fun c => !rustIsWhitespace c) && noWsVal v && noWsObj kvs

end

/-! ## Shared helper lemmas about the cursor primitives -/

theorem charAt_cons_zero (c : Char) (cs : List Char) : charAt (c :: cs) 0 = c := rfl

theorem charAt_cons_succ (c : Char) (cs : List Char) (n : Nat) :
    charAt (c :: cs) (n + 1) = charAt cs n := rfl

theorem drop_cons_self {input : List Char} {pos : Nat} (h : pos < input.length) :
    input.drop pos = charAt input pos :: input.drop (pos + 1) := by
  rw [charAt, List.getD_eq_getElem _ _ h]
  exact List.drop_eq_getElem_cons h

theorem charAt_of_drop_cons {input : List Char} {pos : Nat} {c : Char}
    {rest : List Char} (h : input.drop pos = c :: rest) :
    charAt input pos = c := by
  have hp : pos < input.length := by
    by_contra hge
    rw [List.drop_eq_nil_of_le (by omega)] at h
    exact absurd h (by simp)
  have := drop_cons_self hp
  rw [h] at this
  exact (List.cons.injEq .. ▸ this).1.symm

theorem drop_succ_of_drop_cons {input : List Char} {pos : Nat} {c : Char}
    {rest : List Char} (h : input.drop pos = c :: rest) :
    input.drop (pos + 1) = rest := by
  have hp : pos < input.length := by
    by_contra hge
    rw [List.drop_eq_nil_of_le (by omega)] at h
    exact absurd h (by simp)
  have := drop_cons_self hp
  rw [h] at this
  exact ((List.cons.injEq .. ▸ this).2).symm

theorem charAt_append_right (pre rest : List Char) (i : Nat) :
    charAt (pre ++ rest) (pre.length + i) = charAt rest i := by
  show ((pre ++ rest).get? (pre.length + i)).getD _ = (rest.get? i).getD _
  rw [List.get?_eq_getElem?, List.get?_eq_getElem?,
    List.getElem?_append_right (by omega)]
  congr 2
  omega

/-- `skip_whitespace` is the identity when the cursor sits on a
non-skippable character. -/
theorem skipWhitespace_no_skip {input : List Char} {pos : Nat}
    (hp : pos < input.length)
    (h2 : isSkipChar (charAt input pos) = false) :
    skipWhitespace input pos = pos := by
  rw [skipWhitespace, drop_cons_self hp, skipWsConsumed.eq_def]
  simp [h2]

/-- `skip_whitespace` swallows a single comma followed by a non-skippable
character. -/
theorem skipWhitespace_one_comma {input : List Char} {pos : Nat}
    (h : charAt input pos = ',')
    (hp : pos + 1 < input.length)
    (h2 : isSkipChar (charAt input (pos + 1)) = false) :
    skipWhitespace input pos = pos + 1 := by
  rw [skipWhitespace, drop_cons_self (by omega : pos < input.length),
    drop_cons_self hp, skipWsConsumed.eq_def]
  simp only [h]
  rw [if_pos (by decide), skipWsConsumed.eq_def]
  simp [h2]

/-- `require_chars` succeeds and advances past `expected` when `expected`
is what the input holds at the cursor. -/
theorem requireChars_of_take (expected input : List Char) (pos : Nat)
    (h : (input.drop pos).take expected.length = expected)
    (hlen : pos + expected.length ≤ input.length) :
    requireChars expected input pos = .ok (pos + expected.length) := by
  induction expected generalizing pos with
  | nil => simp [requireChars]
  | cons e es ih =>
    have hplen : pos < input.length := by
      have := hlen
      simp only [List.length_cons] at this
      omega
    rw [drop_cons_self hplen] at h
    simp only [List.length_cons, List.take_succ_cons, List.cons.injEq] at h
    rw [requireChars]
    rw [if_neg (by omega), h.1, if_neg (by simp)]
    have := ih (pos + 1) h.2 (by simp only [List.length_cons] at hlen; omega)
    rw [this]
    simp only [List.length_cons]
    congr 1
    omega

/-- Splitting the string scan at a fully-consumed front segment. -/
theorem scanStr_append_of_full {cs : List Char} (ds : List Char) {esc : Bool}
    (h : scanStr cs esc = cs.length) :
    scanStr (cs ++ ds) esc = cs.length + scanStr ds (scanStrState cs esc) := by
  induction cs generalizing esc with
  | nil => simp [scanStrState]
  | cons c cs ih =>
    by_cases hq : (c = '"' && !esc) = true
    · rw [scanStr, if_pos hq] at h
      simp at h
    · rw [scanStr, if_neg hq] at h
      simp only [List.length_cons] at h
      have h' : scanStr cs (c = '\\') = cs.length := by omega
      rw [List.cons_append, scanStr, if_neg hq, ih h', scanStrState]
      simp only [List.length_cons]
      omega

/-- The scan stops at the first unescaped quote after a fully-consumed,
escape-clear front segment. -/
theorem scanStr_stops_at_quote {content : List Char} (rest : List Char)
    (hscan : scanStr content false = content.length)
    (hstate : scanStrState content false = false) :
    scanStr (content ++ '"' :: rest) false = content.length := by
  rw [scanStr_append_of_full _ hscan, hstate, scanStr]
  simp

/-- `parse_string` at a cursor whose next characters are a scannable
content segment followed by a closing quote: returns the unescaped content
and leaves the cursor just past the closing quote. -/
theorem parseString_at (input content rest s : List Char) (pos : Nat)
    (hdrop : input.drop (pos + 1) = content ++ '"' :: rest)
    (hscan : scanStr content false = content.length)
    (hstate : scanStrState content false = false)
    (hun : unescapeList content false = .ok s) :
    parseString input pos = .ok (s, pos + 1 + content.length + 1) := by
  have hlen : input.length - (pos + 1) = content.length + (rest.length + 1) := by
    have := congrArg List.length hdrop
    simpa using this
  have hlt : pos + 1 + content.length < input.length := by
    rcases Nat.lt_or_ge (pos + 1) input.length with hp | hp
    · omega
    · rw [List.drop_eq_nil_of_le hp] at hdrop
      exact absurd hdrop (by simp)
  have hne : ¬(pos + 1 + content.length = input.length) := by omega
  rw [parseString, hdrop, scanStr_stops_at_quote rest hscan hstate]
  rw [if_neg (by simp [hne]), List.take_left, hun]

/-! ## Claim C1 — dispatch on an unhandled leading character -/

/-- C1: the claim says `parse` maps an unhandled leading character to
`UnexpectedChar` at its position and never panics.  The code's dispatch
ends in `todo!("Error {x}")` instead: on the input `"@"` (whose first — and
only — character is outside the handled set) the parser panics, and in
particular does not return `UnexpectedChar(0)`. -/
theorem c1_unhandled_leading_char_panics :
    jsonParse (("@").data) = .panic ∧
    jsonParse (("@").data) ≠ .err (.unexpectedChar 0) := by decide

/-! ## Claim C2 — the substring handed to the Number parser -/

/-- C2 counterexample: on the input `1,` the captured substring is `1,`,
not the maximal `{0-9,-,.}` run `1` the claim promises — and in consequence
the whole parse fails with `InvalidNumber` where the claim would have it
succeed with `UInt 1`. -/
theorem c2_slice_not_maximal_run_cex :
    numberSlice (("1,").data) 0 = ('1' :: ',' :: []) ∧
    numberSlice (("1,").data) 0 ≠ (("1,").data).takeWhile isNumChar ∧
    jsonParse (("1,").data) = .err (.invalidNumber .parseIntError) := by decide

/-- C2 amended: the substring `parse_number` hands to the Number parser is
the maximal run of characters from `{0-9, -, .}` starting at the cursor
PLUS the first character after the run, whenever the run is stopped by a
non-run character rather than by the end of input (the scan loop consumes
a character before testing it and never steps back). -/
theorem c2_number_slice_run_plus_terminator (input : List Char) (pos : Nat) :
    numberSlice input pos =
      (input.drop pos).takeWhile isNumChar ++
        ((input.drop pos).dropWhile isNumChar).take 1 := by
  unfold numberSlice
  generalize input.drop pos = cs
  induction cs with
  | nil => simp [numConsumed]
  | cons c cs ih =>
    by_cases h : isNumChar c = true
    · simp only [numConsumed, h, if_true, List.takeWhile_cons, List.dropWhile_cons,
        Nat.add_comm 1 (numConsumed cs), List.take_succ_cons, List.cons_append]
      exact congrArg (c :: ·) ih
    · simp only [Bool.not_eq_true] at h
      simp [numConsumed, h, List.takeWhile_cons, List.dropWhile_cons]

/-! ## Claim C6 — escape tracking in the string scan -/

/-- C6 counterexample: the input `"\\"` (opening quote, two backslashes,
closing quote) parses to the two-character string `\"` — the second
backslash leaves the escape flag set, so the closing quote is consumed as
content — not to the one-character string `\` the claim requires. -/
theorem c6_double_backslash_cex :
    jsonParse (("\"\\\\\"").data) = .ok (.str (('\\') :: ('"') :: [])) ∧
    jsonParse (("\"\\\\\"").data) ≠ .ok (.str (('\\') :: [])) := by decide

/-- C6 amended: in the forward scan a backslash always sets the
escape-active flag for the following character — in particular the flag is
still set after two consecutive backslashes — and a quote terminates the
scan exactly when the flag is clear; consequently `"\\"` parses to the
two-character string `\"`, the closing quote having been consumed as
escaped content. -/
theorem c6_escape_scan_semantics :
    (∀ cs : List Char, ∀ esc : Bool,
      scanStr (('\\') :: cs) esc = 1 + scanStr cs true) ∧
    (∀ cs : List Char, ∀ esc : Bool,
      scanStr (('\\') :: ('\\') :: cs) esc = 2 + scanStr cs true) ∧
    (∀ cs : List Char, scanStr (('"') :: cs) false = 0) ∧
    (∀ cs : List Char, scanStr (('"') :: cs) true = 1 + scanStr cs false) ∧
    jsonParse (("\"\\\\\"").data) = .ok (.str (('\\') :: ('"') :: [])) := by
  refine ⟨fun cs esc => ?_, fun cs esc => ?_, fun cs => ?_, fun cs => ?_, by decide⟩
  · simp [scanStr]
  · simp [scanStr]
    omega
  · simp [scanStr]
  · simp [scanStr]

/-! ## Claim C7 — hash consistency with Number equality -/

/-- C7 counterexample: `Float(+0.0)` and `Float(-0.0)` compare equal under
`Number`'s `PartialEq` (IEEE `==` on the payloads) yet hash differently
(`to_bits` distinguishes the sign bit), so hashing is not consistent with
equality on the very pair the claim includes. -/
theorem c7_signed_zero_hash_cex :
    numberEq (.float 0) (.float f64NegZeroBits) = true ∧
    numberHash (.float 0) ≠ numberHash (.float f64NegZeroBits) := by decide

/-- C7 amended: hashing is consistent with `Number` equality except on the
one equal-but-distinct-bits pair, positive and negative zero: whenever two
Numbers compare equal and are not that mixed-zero pair, their hashes agree
(integers hash their raw value, floats their bit pattern). -/
theorem c7_hash_consistent_outside_signed_zeros (a b : Number)
    (h : numberEq a b = true)
    (hz : ¬(a = .float 0 ∧ b = .float f64NegZeroBits))
    (hz' : ¬(a = .float f64NegZeroBits ∧ b = .float 0)) :
    numberHash a = numberHash b := by
  cases a with
  | uint x =>
    cases b <;> simp_all [numberEq]
  | int x =>
    cases b <;> simp_all [numberEq]
  | float x =>
    cases b with
    | uint y => simp_all [numberEq]
    | int y => simp_all [numberEq]
    | float y =>
      simp only [numberEq, f64Eq, Bool.and_eq_true, Bool.or_eq_true,
        decide_eq_true_eq] at h
      rcases h.2 with h2 | h2
      · simp [h2, numberHash]
      · have hx := h2.1
        have hy := h2.2
        simp only [f64IsZero, Bool.or_eq_true, decide_eq_true_eq] at hx hy
        have hneg : f64NegZeroBits = 2 ^ 63 := rfl
        rcases hx with hx | hx <;> rcases hy with hy | hy
        · simp [hx, hy, numberHash]
        · exact absurd ⟨by simp [hx], by simp [hy, hneg]⟩ hz
        · exact absurd ⟨by simp [hx, hneg], by simp [hy]⟩ hz'
        · simp [hx, hy, numberHash]

/-- C7 amended, witnessed at the equal-bits pair `Float(5)`/`Float(5)`. -/
theorem c7_hash_consistent_witness :
    numberHash (.float 5) = numberHash (.float 5) :=
  c7_hash_consistent_outside_signed_zeros (.float 5) (.float 5)
    (by decide) (by decide) (by decide)

/-! ## Claim C5 — unterminated strings -/

theorem getLast?_eq_charAt {l : List Char} (h : l ≠ []) :
    l.getLast? = some (charAt l (l.length - 1)) := by
  have hlt : l.length - 1 < l.length := by
    cases l with
    | nil => exact absurd rfl h
    | cons a as => simp
  rw [List.getLast?_eq_getElem?, List.getElem?_eq_getElem hlt]
  rw [charAt, List.getD_eq_getElem _ _ hlt]

/-- C5 counterexample: an input consisting of a lone opening quote — whose
forward scan reaches end-of-input without any unescaped closing quote —
parses SUCCESSFULLY as the empty string instead of failing with
`UnexpectedEnd`: the end-of-input check looks at the raw final character,
which here is the opening quote itself. -/
theorem c5_lone_quote_parses_cex :
    jsonParse (('"') :: []) = .ok (.str []) := by decide

/-- C5 amended: when the forward scan of a string consumes the rest of the
input without finding an unescaped closing quote AND the raw final
character of the input is not a double quote, the parse fails with
`UnexpectedEnd` at the final position.  (The extra condition is necessary:
when the raw final character is a quote the claimed failure does not hold
in general — the lone-opening-quote input parses successfully as the empty
string, as the counterexample shows.) -/
theorem c5_unterminated_string_fails (tail : List Char)
    (hscan : scanStr tail false = tail.length)
    (hlast : ('"' :: tail).getLast? ≠ some '"') :
    jsonParse ('"' :: tail) = .err (.unexpectedEnd ('"' :: tail).length) := by
  set input := '"' :: tail with hinput
  have hch : charAt input 0 = '"' := rfl
  have hsw : skipWhitespace input 0 = 0 :=
    skipWhitespace_no_skip (by simp [hinput]) (by rw [hch]; decide)
  have hlen : input.length = tail.length + 1 := by simp [hinput]
  have hlq : charAt input (input.length - 1) ≠ '"' := by
    intro hq
    exact hlast (by rw [getLast?_eq_charAt (by simp [hinput]), hq])
  have hps : parseString input 0 = .error (.unexpectedEnd input.length) := by
    rw [parseString]
    have hd : input.drop (0 + 1) = tail := rfl
    rw [hd, hscan]
    have hpos : 0 + 1 + tail.length = input.length := by omega
    have hcond : (decide (0 + 1 + tail.length = input.length) &&
        decide (charAt input (0 + 1 + tail.length - 1) ≠ '"')) = true := by
      simp only [Bool.and_eq_true, decide_eq_true_eq]
      refine ⟨hpos, ?_⟩
      rw [show 0 + 1 + tail.length - 1 = input.length - 1 by omega]
      exact hlq
    rw [if_pos hcond, hpos]
  rw [jsonParse, show 2 * input.length + 4 = (2 * input.length + 3) + 1 from rfl, parse]
  rw [if_neg (by simp [hinput])]
  simp only [hsw, hch, hps]
  rfl

/-- C5 amended, witnessed on the unterminated input `"a`. -/
theorem c5_unterminated_string_fails_witness :
    jsonParse ('"' :: ('a') :: []) = .err (.unexpectedEnd 2) :=
  c5_unterminated_string_fails (('a') :: []) (by decide) (by decide)

/-! ## Claim C8 — numeric literal classification -/

/-- C8: `Number::from_str` classifies in order — a substring containing a
decimal point is parsed as a float (yielding a `Float` or a float-parse
error wrapped in `InvalidNumber`, never an integer variant); otherwise a
leading `-` selects signed-integer parsing (yielding an `Int` or an
integer-parse error); otherwise unsigned-integer parsing (yielding a `UInt`
or an integer-parse error).  Concretely, the malformed float `1.2.3` is a
float-parse failure, the malformed integer `--1` is an integer-parse
failure, and `-1.5` is a float despite its leading minus. -/
theorem c8_number_classification :
    (∀ s : List Char, s.contains '.' = true →
      (∃ f, numberFromStr s = .ok (.float f)) ∨
        numberFromStr s = .error (.invalidNumber .parseFloatError)) ∧
    (∀ s : List Char, s.contains '.' = false → s.head? = some '-' →
      (∃ i, numberFromStr s = .ok (.int i)) ∨
        numberFromStr s = .error (.invalidNumber .parseIntError)) ∧
    (∀ s : List Char, s.contains '.' = false → s.head? ≠ some '-' →
      (∃ n, numberFromStr s = .ok (.uint n)) ∨
        numberFromStr s = .error (.invalidNumber .parseIntError)) ∧
    numberFromStr (("1.2.3").data) = .error (.invalidNumber .parseFloatError) ∧
    numberFromStr (("--1").data) = .error (.invalidNumber .parseIntError) ∧
    (∃ f, numberFromStr (("-1.5").data) = .ok (.float f)) := by
  refine ⟨fun s h => ?_, fun s h h' => ?_, fun s h h' => ?_,
    by decide, by decide, ⟨f64BitsOfText (("-1.5").data), by decide⟩⟩
  · unfold numberFromStr
    rw [h]
    cases rustParseF64 s with
    | some f => exact .inl ⟨f, rfl⟩
    | none => exact .inr rfl
  · unfold numberFromStr
    rw [h, h']
    cases rustParseI64 s with
    | some i => exact .inl ⟨i, rfl⟩
    | none => exact .inr rfl
  · unfold numberFromStr
    rw [h, if_neg h']
    cases rustParseU64 s with
    | some n => exact .inl ⟨n, rfl⟩
    | none => exact .inr rfl

/-- C8, witnessed: the dot rule applied at `1.5`, the minus rule at `-7`,
and the unsigned rule at `12`. -/
theorem c8_number_classification_witness :
    ((∃ f, numberFromStr (("1.5").data) = .ok (.float f)) ∨
      numberFromStr (("1.5").data) = .error (.invalidNumber .parseFloatError)) ∧
    ((∃ i, numberFromStr (("-7").data) = .ok (.int i)) ∨
      numberFromStr (("-7").data) = .error (.invalidNumber .parseIntError)) ∧
    ((∃ n, numberFromStr (("12").data) = .ok (.uint n)) ∨
      numberFromStr (("12").data) = .error (.invalidNumber .parseIntError)) :=
  ⟨c8_number_classification.1 _ (by decide),
   c8_number_classification.2.1 _ (by decide) (by decide),
   c8_number_classification.2.2.1 _ (by decide) (by decide)⟩

/-! ## Claim C9 — empty containers -/

/-- C9: the two-phase container parse handles zero-element containers:
`[]` parses to the empty Array and the empty-braces input to the empty
Object. -/
theorem c9_empty_containers :
    jsonParse (("[]").data) = .ok (.arr []) ∧
    jsonParse (("\x7b\x7d").data) = .ok (.obj []) := by decide

/-! ## Claim C10 — trailing garbage after a complete leading literal -/

/-- C10: when the input begins with a complete `null`, `true`, `false` or
string literal, `parse` succeeds with exactly that value, whatever follows
the literal — arbitrary trailing characters neither change the result nor
cause an error.  A complete string literal is an opening quote, a content
segment that the forward scan consumes in full with the escape flag clear
at its end, a closing quote, and a valid-escape content. -/
theorem c10_first_literal_wins :
    (∀ rest : List Char,
      jsonParse (('n' :: 'u' :: 'l' :: 'l' :: []) ++ rest) = .ok .null) ∧
    (∀ rest : List Char,
      jsonParse (('t' :: 'r' :: 'u' :: 'e' :: []) ++ rest) = .ok (.bool true)) ∧
    (∀ rest : List Char,
      jsonParse (('f' :: 'a' :: 'l' :: 's' :: 'e' :: []) ++ rest) = .ok (.bool false)) ∧
    (∀ content s rest : List Char,
      scanStr content false = content.length →
      scanStrState content false = false →
      unescapeList content false = .ok s →
      jsonParse ('"' :: (content ++ '"' :: rest)) = .ok (.str s)) := by
  refine ⟨fun rest => ?_, fun rest => ?_, fun rest => ?_,
    fun content s rest hscan hstate hun => ?_⟩
  · set input := ('n' :: 'u' :: 'l' :: 'l' :: []) ++ rest with hinput
    have hch : charAt input 0 = 'n' := rfl
    have hsw : skipWhitespace input 0 = 0 :=
      skipWhitespace_no_skip (by simp [hinput]) (by rw [hch]; decide)
    have hreq : requireChars ('n' :: 'u' :: 'l' :: 'l' :: []) input 0 = .ok 4 := by
      have := requireChars_of_take ('n' :: 'u' :: 'l' :: 'l' :: [])
        input 0 (by simp [hinput]) (by simp [hinput])
      simpa using this
    rw [jsonParse, show 2 * input.length + 4 = (2 * input.length + 3) + 1 from rfl, parse]
    rw [if_neg (by simp [hinput])]
    simp only [hsw, hch, if_true, parseNull, hreq]
    rfl
  · set input := ('t' :: 'r' :: 'u' :: 'e' :: []) ++ rest with hinput
    have hch : charAt input 0 = 't' := rfl
    have hsw : skipWhitespace input 0 = 0 :=
      skipWhitespace_no_skip (by simp [hinput]) (by rw [hch]; decide)
    have hreq : requireChars ('r' :: 'u' :: 'e' :: []) input 1 = .ok 4 := by
      have := requireChars_of_take ('r' :: 'u' :: 'e' :: [])
        input 1 (by simp [hinput]) (by simp [hinput])
      simpa using this
    rw [jsonParse, show 2 * input.length + 4 = (2 * input.length + 3) + 1 from rfl, parse]
    rw [if_neg (by simp [hinput])]
    simp only [hsw, hch, parseBool, hreq]
    rfl
  · set input := ('f' :: 'a' :: 'l' :: 's' :: 'e' :: []) ++ rest with hinput
    have hch : charAt input 0 = 'f' := rfl
    have hsw : skipWhitespace input 0 = 0 :=
      skipWhitespace_no_skip (by simp [hinput]) (by rw [hch]; decide)
    have hreq : requireChars ('a' :: 'l' :: 's' :: 'e' :: []) input 1 = .ok 5 := by
      have := requireChars_of_take ('a' :: 'l' :: 's' :: 'e' :: [])
        input 1 (by simp [hinput]) (by simp [hinput])
      simpa using this
    rw [jsonParse, show 2 * input.length + 4 = (2 * input.length + 3) + 1 from rfl, parse]
    rw [if_neg (by simp [hinput])]
    simp only [hsw, hch, parseBool, hreq]
    rfl
  · set input := '"' :: (content ++ '"' :: rest) with hinput
    have hch : charAt input 0 = '"' := rfl
    have hsw : skipWhitespace input 0 = 0 :=
      skipWhitespace_no_skip (by simp [hinput]) (by rw [hch]; decide)
    have hps : parseString input 0 = .ok (s, 0 + 1 + content.length + 1) :=
      parseString_at input content rest s 0
        (show input.drop (0 + 1) = content ++ '"' :: rest from rfl) hscan hstate hun
    rw [jsonParse, show 2 * input.length + 4 = (2 * input.length + 3) + 1 from rfl, parse]
    rw [if_neg (by simp [hinput])]
    simp only [hsw, hch, hps]
    rfl

/-- C10, witnessed: `nullXYZ` parses as null and `"ab"!!` as the string
`ab`, the trailing garbage ignored in both. -/
theorem c10_first_literal_wins_witness :
    jsonParse (("nullXYZ").data) = .ok .null ∧
    jsonParse (("\"ab\"!!").data) = .ok (.str (('a') :: ('b') :: [])) :=
  ⟨c10_first_literal_wins.1 (("XYZ").data),
   c10_first_literal_wins.2.2.2 (('a') :: ('b') :: []) (('a') :: ('b') :: [])
     (('!') :: ('!') :: []) (by decide) (by decide) (by decide)⟩

/-! ## Claim C4 — canonical, compact, insertion-order-independent rendering -/

theorem keyLt_asymm : ∀ a b : List Char, keyLt a b = true → keyLt b a = true → False := by
  intro a
  induction a with
  | nil => intro b h1 h2; cases b <;> simp [keyLt] at h1 h2
  | cons x xs ih =>
    intro b h1 h2
    cases b with
    | nil => simp [keyLt] at h1
    | cons y ys =>
      rw [keyLt] at h1 h2
      rcases lt_trichotomy x y with hxy | hxy | hxy
      · rw [if_neg (not_lt_of_lt hxy), if_pos hxy] at h2
        simp at h2
      · rw [hxy] at h1 h2
        rw [if_neg (lt_irrefl y), if_neg (lt_irrefl y)] at h1 h2
        exact ih ys h1 h2
      · rw [if_neg (not_lt_of_lt hxy), if_pos hxy] at h1
        simp at h1

theorem keyLt_trans : ∀ a b c : List Char,
    keyLt a b = true → keyLt b c = true → keyLt a c = true := by
  intro a
  induction a with
  | nil =>
    intro b c h1 h2
    cases b with
    | nil => simp [keyLt] at h1
    | cons y ys =>
      cases c with
      | nil => simp [keyLt] at h2
      | cons z zs => simp [keyLt]
  | cons x xs ih =>
    intro b c h1 h2
    cases b with
    | nil => simp [keyLt] at h1
    | cons y ys =>
      cases c with
      | nil => simp [keyLt] at h2
      | cons z zs =>
        rw [keyLt] at h1 h2 ⊢
        rcases lt_trichotomy x y with hxy | hxy | hxy
        · rcases lt_trichotomy y z with hyz | hyz | hyz
          · rw [if_pos (lt_trans hxy hyz)]
          · rw [← hyz]; rw [if_pos hxy]
          · rw [if_neg (not_lt_of_lt hyz), if_pos hyz] at h2; simp at h2
        · rw [hxy]
          rcases lt_trichotomy y z with hyz | hyz | hyz
          · rw [if_pos hyz]
          · rw [hxy] at h1
            rw [hyz] at h1 h2 ⊢
            rw [if_neg (lt_irrefl z), if_neg (lt_irrefl z)] at h1 h2 ⊢
            exact ih ys zs h1 h2
          · rw [if_neg (not_lt_of_lt hyz), if_pos hyz] at h2; simp at h2
        · rw [if_neg (not_lt_of_lt hxy), if_pos hxy] at h1; simp at h1

theorem keyLt_connex : ∀ a b : List Char, a ≠ b →
    keyLt a b = true ∨ keyLt b a = true := by
  intro a
  induction a with
  | nil =>
    intro b h
    cases b with
    | nil => exact absurd rfl h
    | cons y ys => left; simp [keyLt]
  | cons x xs ih =>
    intro b h
    cases b with
    | nil => right; simp [keyLt]
    | cons y ys =>
      rcases lt_trichotomy x y with hxy | hxy | hxy
      · left; rw [keyLt, if_pos hxy]
      · have hne : xs ≠ ys := fun heq => h (by rw [hxy, heq])
        rcases ih ys hne with h' | h'
        · left; rw [keyLt, hxy, if_neg (lt_irrefl y), if_neg (lt_irrefl y)]; exact h'
        · right; rw [keyLt, hxy, if_neg (lt_irrefl y), if_neg (lt_irrefl y)]; exact h'
      · right; rw [keyLt, if_pos hxy]

theorem mem_btreeInsert {x : List Char × Value} {k : List Char} {v : Value} :
    ∀ {l : List (List Char × Value)}, x ∈ btreeInsert k v l → x = (k, v) ∨ x ∈ l := by
  intro l
  induction l with
  | nil => intro h; simpa [btreeInsert] using h
  | cons e l ih =>
    obtain ⟨k', v'⟩ := e
    intro h
    rw [btreeInsert] at h
    by_cases h1 : keyLt k k' = true
    · rw [if_pos h1] at h
      rcases List.mem_cons.mp h with h | h
      · exact .inl h
      · exact .inr h
    · rw [if_neg h1] at h
      by_cases h2 : k = k'
      · rw [if_pos h2] at h
        rcases List.mem_cons.mp h with h | h
        · exact .inl h
        · exact .inr (List.mem_cons_of_mem _ h)
      · rw [if_neg h2] at h
        rcases List.mem_cons.mp h with h | h
        · exact .inr (h ▸ List.mem_cons_self _ _)
        · rcases ih h with h' | h'
          · exact .inl h'
          · exact .inr (List.mem_cons_of_mem _ h')

theorem btreeInsert_perm (k : List Char) (v : Value) :
    ∀ {l : List (List Char × Value)}, (∀ e ∈ l, e.1 ≠ k) →
      (btreeInsert k v l).Perm ((k, v) :: l) := by
  intro l
  induction l with
  | nil => intro _; simp [btreeInsert]
  | cons e l ih =>
    obtain ⟨k', v'⟩ := e
    intro hk
    rw [btreeInsert]
    by_cases h1 : keyLt k k' = true
    · rw [if_pos h1]
    · rw [if_neg h1]
      have h2 : ¬(k = k') := fun heq => hk (k', v') (List.mem_cons_self _ _) heq.symm
      rw [if_neg h2]
      have hperm := ih (fun e he => hk e (List.mem_cons_of_mem _ he))
      have p1 : ((k', v') :: btreeInsert k v l).Perm ((k', v') :: (k, v) :: l) :=
        hperm.cons _
      exact p1.trans (List.Perm.swap _ _ _)

theorem btreeInsert_sorted (k : List Char) (v : Value) :
    ∀ {l : List (List Char × Value)},
      l.Pairwise (fun a b => keyLt a.1 b.1 = true) →
      (∀ e ∈ l, e.1 ≠ k) →
      (btreeInsert k v l).Pairwise (fun a b => keyLt a.1 b.1 = true) := by
  intro l
  induction l with
  | nil => intro _ _; simp [btreeInsert]
  | cons e l ih =>
    obtain ⟨k', v'⟩ := e
    intro hs hk
    rw [List.pairwise_cons] at hs
    rw [btreeInsert]
    by_cases h1 : keyLt k k' = true
    · rw [if_pos h1, List.pairwise_cons]
      refine ⟨?_, List.pairwise_cons.mpr hs⟩
      intro b hb
      rcases List.mem_cons.mp hb with hb | hb
      · rw [hb]; exact h1
      · exact keyLt_trans _ _ _ h1 (hs.1 b hb)
    · rw [if_neg h1]
      have h2 : ¬(k = k') := fun heq => hk (k', v') (List.mem_cons_self _ _) heq.symm
      rw [if_neg h2]
      rw [List.pairwise_cons]
      refine ⟨?_, ih hs.2 (fun e he => hk e (List.mem_cons_of_mem _ he))⟩
      intro b hb
      rcases mem_btreeInsert hb with hb' | hb'
      · rw [hb']
        rcases keyLt_connex k k' (fun heq => h2 heq) with h' | h'
        · exact absurd h' h1
        · exact h'
      · exact hs.1 b hb'

theorem mapFromList_go :
    ∀ (l acc : List (List Char × Value)),
      acc.Pairwise (fun a b => keyLt a.1 b.1 = true) →
      ((acc ++ l).map Prod.fst).Nodup →
      (l.foldl (fun m kv => btreeInsert kv.1 kv.2 m) acc).Pairwise
          (fun a b => keyLt a.1 b.1 = true) ∧
        (l.foldl (fun m kv => btreeInsert kv.1 kv.2 m) acc).Perm (acc ++ l) := by
  intro l
  induction l with
  | nil =>
    intro acc hs hnd
    refine ⟨hs, by simp⟩
  | cons kv l ih =>
    intro acc hs hnd
    have hknotin : ∀ e ∈ acc, e.1 ≠ kv.1 := by
      intro e he heq
      rw [List.map_append, List.nodup_append] at hnd
      have h1 : e.1 ∈ acc.map Prod.fst := List.mem_map_of_mem _ he
      have h2 : e.1 ∈ (kv :: l).map Prod.fst := by
        rw [List.map_cons]
        exact heq ▸ List.mem_cons_self _ _
      exact hnd.2.2 h1 h2
    have hperm1 : (btreeInsert kv.1 kv.2 acc).Perm (kv :: acc) := by
      simpa using btreeInsert_perm kv.1 kv.2 hknotin
    have hs' := btreeInsert_sorted kv.1 kv.2 hs hknotin
    have hnd' : (((btreeInsert kv.1 kv.2 acc) ++ l).map Prod.fst).Nodup := by
      have hp : ((btreeInsert kv.1 kv.2 acc) ++ l).Perm (acc ++ kv :: l) :=
        ((hperm1.append_right l).trans (List.perm_middle).symm)
      exact ((hp.map Prod.fst).nodup_iff).mpr hnd
    obtain ⟨hps, hpp⟩ := ih (btreeInsert kv.1 kv.2 acc) hs' hnd'
    rw [List.foldl_cons]
    refine ⟨hps, ?_⟩
    refine hpp.trans ?_
    exact (hperm1.append_right l).trans (List.perm_middle).symm

/-- Both insertion orders of a duplicate-free set of entries build the same
`BTreeMap`. -/
theorem mapFromList_order_independent {l1 l2 : List (List Char × Value)}
    (hperm : l1.Perm l2) (hnd : (l1.map Prod.fst).Nodup) :
    mapFromList l1 = mapFromList l2 := by
  have hnd2 : (l2.map Prod.fst).Nodup := ((hperm.map Prod.fst).nodup_iff).mp hnd
  obtain ⟨hs1, hp1⟩ := mapFromList_go l1 [] (by simp) (by simpa using hnd)
  obtain ⟨hs2, hp2⟩ := mapFromList_go l2 [] (by simp) (by simpa using hnd2)
  haveI : IsAntisymm (List Char × Value) (fun a b => keyLt a.1 b.1 = true) :=
    ⟨fun a b h1 h2 => (keyLt_asymm _ _ h1 h2).elim⟩
  refine List.eq_of_perm_of_sorted ?_ hs1 hs2
  refine (hp1.trans ?_).trans hp2.symm
  simpa using hperm



theorem natDecAux_no_ws :
    ∀ (fuel n : Nat) (acc : List Char),
      (∀ c ∈ acc, rustIsWhitespace c = false) →
      ∀ c ∈ natDecAux fuel n acc, rustIsWhitespace c = false := by
  intro fuel
  induction fuel with
  | zero => intro n acc hacc c hc; exact hacc c hc
  | succ fuel ih =>
    intro n acc hacc c hc
    have hdig : rustIsWhitespace (Char.ofNat (n % 10 + 48)) = false := by
      have h10 : n % 10 < 10 := Nat.mod_lt _ (by omega)
      interval_cases h : n % 10 <;> decide
    rw [natDecAux] at hc
    by_cases hn : n < 10
    · rw [if_pos hn] at hc
      rcases List.mem_cons.mp hc with hc | hc
      · rw [hc]; exact hdig
      · exact hacc c hc
    · rw [if_neg hn] at hc
      refine ih (n / 10) _ ?_ c hc
      intro c' hc'
      rcases List.mem_cons.mp hc' with hc' | hc'
      · rw [hc']; exact hdig
      · exact hacc c' hc'

theorem natDecChars_no_ws (n : Nat) :
    ∀ c ∈ natDecChars n, rustIsWhitespace c = false :=
  natDecAux_no_ws (n + 1) n [] (by simp)

theorem intDecChars_no_ws (i : Int) :
    ∀ c ∈ intDecChars i, rustIsWhitespace c = false := by
  intro c hc
  rw [intDecChars] at hc
  by_cases hi : i < 0
  · rw [if_pos hi] at hc
    rcases List.mem_cons.mp hc with hc | hc
    · rw [hc]; decide
    · exact natDecChars_no_ws _ c hc
  · rw [if_neg hi] at hc
    exact natDecChars_no_ws _ c hc

theorem escapeChar_no_ws (c : Char) (h : rustIsWhitespace c = false) :
    ∀ c' ∈ escapeChar c, rustIsWhitespace c' = false := by
  intro c' hc'
  rw [escapeChar] at hc'
  split_ifs at hc' <;>
    first
      | (rcases List.mem_cons.mp hc' with h' | h'
         · rw [h']; decide
         · simp only [List.mem_singleton, List.mem_cons, List.not_mem_nil, or_false] at h'
           rw [h']; decide)
      | (simp only [List.mem_singleton] at hc'; rw [hc']; exact h)

theorem escapeStr_no_ws (s : List Char)
    (h : ∀ c ∈ s, rustIsWhitespace c = false) :
    ∀ c ∈ escapeStr s, rustIsWhitespace c = false := by
  intro c hc
  rw [escapeStr] at hc
  rw [List.mem_flatten] at hc
  obtain ⟨l, hl, hcl⟩ := hc
  rw [List.mem_map] at hl
  obtain ⟨c0, hc0, rfl⟩ := hl
  exact escapeChar_no_ws c0 (h c0 hc0) c hcl



mutual

theorem render_no_ws : ∀ v : Value, noWsVal v = true →
    ∀ c ∈ render v, rustIsWhitespace c = false
  | .null => by intro _ c hc; fin_cases hc <;> decide
  | .bool b => by
    cases b <;> (intro _ c hc; rw [render] at hc; fin_cases hc <;> decide)
  | .number n => by
    intro h c hc
    rw [render] at hc
    cases n with
    | uint m => exact natDecChars_no_ws m c hc
    | int m => exact intDecChars_no_ws m c hc
    | float bits => simp [noWsVal] at h
  | .str s => by
    intro h c hc
    rw [render] at hc
    simp only [noWsVal, List.all_eq_true, Bool.not_eq_true'] at h
    rcases List.mem_cons.mp hc with hc | hc
    · rw [hc]; decide
    · rcases List.mem_append.mp hc with hc | hc
      · exact escapeStr_no_ws s h c hc
      · simp only [List.mem_singleton, List.mem_cons, List.not_mem_nil, or_false] at hc
        rw [hc]; decide
  | .arr xs => by
    intro h c hc
    rw [render] at hc
    simp only [noWsVal] at h
    rcases List.mem_cons.mp hc with hc | hc
    · rw [hc]; decide
    · rcases List.mem_append.mp hc with hc | hc
      · exact renderArr_no_ws xs h c hc
      · simp only [List.mem_singleton, List.mem_cons, List.not_mem_nil, or_false] at hc
        rw [hc]; decide
  | .obj kvs => by
    intro h c hc
    rw [render] at hc
    simp only [noWsVal] at h
    rcases List.mem_cons.mp hc with hc | hc
    · rw [hc]; decide
    · rcases List.mem_append.mp hc with hc | hc
      · exact renderObj_no_ws kvs h c hc
      · simp only [List.mem_singleton, List.mem_cons, List.not_mem_nil, or_false] at hc
        rw [hc]; decide

theorem renderArr_no_ws : ∀ xs : List Value, noWsArr xs = true →
    ∀ c ∈ renderArr xs, rustIsWhitespace c = false
  | [] => by intro _ c hc; simp [renderArr] at hc
  | x :: [] => by
    intro h c hc
    rw [renderArr] at hc
    rw [noWsArr, Bool.and_eq_true] at h
    exact render_no_ws x h.1 c hc
  | x :: y :: rest => by
    intro h c hc
    rw [renderArr] at hc
    rw [noWsArr, Bool.and_eq_true] at h
    rcases List.mem_append.mp hc with hc | hc
    · exact render_no_ws x h.1 c hc
    · rcases List.mem_cons.mp hc with hc | hc
      · rw [hc]; decide
      · exact renderArr_no_ws (y :: rest) h.2 c hc

theorem renderObj_no_ws : ∀ kvs : List (List Char × Value), noWsObj kvs = true →
    ∀ c ∈ renderObj kvs, rustIsWhitespace c = false
  | [] => by intro _ c hc; simp [renderObj] at hc
  | (k, v) :: [] => by
    intro h c hc
    rw [renderObj] at hc
    rw [noWsObj, Bool.and_eq_true, Bool.and_eq_true] at h
    have hk : ∀ c ∈ k, rustIsWhitespace c = false := by
      intro c' hc'
      have := List.all_eq_true.mp h.1.1 c' hc'
      simpa using this
    rcases List.mem_cons.mp hc with hc | hc
    · rw [hc]; decide
    · rcases List.mem_append.mp hc with hc | hc
      · exact escapeStr_no_ws k hk c hc
      · rcases List.mem_cons.mp hc with hc | hc
        · rw [hc]; decide
        · rcases List.mem_cons.mp hc with hc | hc
          · rw [hc]; decide
          · exact render_no_ws v h.1.2 c hc
  | (k, v) :: kv :: rest => by
    intro h c hc
    rw [renderObj] at hc
    rw [noWsObj, Bool.and_eq_true, Bool.and_eq_true] at h
    have hk : ∀ c ∈ k, rustIsWhitespace c = false := by
      intro c' hc'
      have := List.all_eq_true.mp h.1.1 c' hc'
      simpa using this
    rcases List.mem_append.mp hc with hc | hc
    · rcases List.mem_cons.mp hc with hc | hc
      · rw [hc]; decide
      · rcases List.mem_append.mp hc with hc | hc
        · exact escapeStr_no_ws k hk c hc
        · rcases List.mem_cons.mp hc with hc | hc
          · rw [hc]; decide
          · rcases List.mem_cons.mp hc with hc | hc
            · rw [hc]; decide
            · exact render_no_ws v h.1.2 c hc
    · rcases List.mem_cons.mp hc with hc | hc
      · rw [hc]; decide
      · exact renderObj_no_ws (kv :: rest) h.2 c hc

end

/-- C4: rendering never fails (the serializer is a total function over all
Values by construction), inserts no whitespace of its own, and renders
every object's entries as `"key":value` pairs joined by `,` in sorted
(byte-lexicographic) key order regardless of the order the entries were
inserted in: (i) inserting the same duplicate-free entries in any order
builds the same map; (ii) the built map is always key-sorted, and the
serializer emits entries in that list order; (iii) a rendering contains no
whitespace character whenever the tree's own strings contain none; (iv)
the object parsed from the spaced two-entry source text renders exactly as
the claim's canonical compact text. -/
theorem c4_canonical_compact_sorted_rendering :
    (∀ l1 l2 : List (List Char × Value), l1.Perm l2 →
      (l1.map Prod.fst).Nodup → mapFromList l1 = mapFromList l2) ∧
    (∀ l : List (List Char × Value), (l.map Prod.fst).Nodup →
      (mapFromList l).Pairwise (fun a b => keyLt a.1 b.1 = true)) ∧
    (∀ v : Value, noWsVal v = true →
      ∀ c ∈ render v, rustIsWhitespace c = false) ∧
    ((match jsonParse (("\x7b\"hello\": \"world\", \"foo\": \"bar\"\x7d").data) with
      | .ok v => render v
      | _ => []) = ("\x7b\"foo\":\"bar\",\"hello\":\"world\"\x7d").data) :=
  ⟨fun _ _ hp hnd => mapFromList_order_independent hp hnd,
   fun l hnd => (mapFromList_go l [] (by simp) (by simpa using hnd)).1,
   render_no_ws,
   by decide⟩

/-- C4, witnessed: the two insertion orders of the `a`/`b` entries build
the same map, that map is key-sorted, and a rendered safe string contains
no whitespace at its first character. -/
theorem c4_canonical_compact_sorted_rendering_witness :
    mapFromList ((('a') :: [], Value.null) :: (('b') :: [], Value.bool true) :: [])
        = mapFromList ((('b') :: [], Value.bool true) :: (('a') :: [], Value.null) :: []) ∧
    (mapFromList ((('b') :: [], Value.bool true) :: (('a') :: [], Value.null) :: [])).Pairwise
        (fun a b => keyLt a.1 b.1 = true) ∧
    rustIsWhitespace 'x' = false :=
  ⟨c4_canonical_compact_sorted_rendering.1 _ _ (by decide) (by decide),
   c4_canonical_compact_sorted_rendering.2.1 _ (by decide),
   c4_canonical_compact_sorted_rendering.2.2.1 (Value.str (('x') :: [])) (by decide)
     'x' (by decide)⟩

/-! ## Claim C3 — parse/render round-trip -/

theorem escapeStr_cons (c : Char) (s : List Char) :
    escapeStr (c :: s) = escapeChar c ++ escapeStr s := by
  simp [escapeStr]

theorem escapeStr_round (s : List Char) (hsafe : safeKey s = true) :
    scanStr (escapeStr s) false = (escapeStr s).length ∧
    scanStrState (escapeStr s) false = false ∧
    unescapeList (escapeStr s) false = .ok s := by
  induction s with
  | nil => refine ⟨rfl, rfl, rfl⟩
  | cons c s ih =>
    have hsc : safeChar c = true ∧ safeKey s = true := by
      simpa [safeKey] using hsafe
    obtain ⟨hc, hs⟩ := hsc
    obtain ⟨h1, h2, h3⟩ := ih hs
    have hnb : c ≠ '\\' := by
      intro heq
      rw [heq] at hc
      simp [safeChar] at hc
    rw [escapeStr_cons, escapeChar]
    split_ifs with hb hq hsl hbb hf hn hr ht
    · exact absurd hb hnb
    · subst hq
      refine ⟨?_, ?_, ?_⟩
      · simp [scanStr, h1]
        omega
      · simp [scanStrState, h2]
      · simp [unescapeList, Except.map, h3]
    · subst hsl
      refine ⟨?_, ?_, ?_⟩
      · simp [scanStr, h1]
        omega
      · simp [scanStrState, h2]
      · simp [unescapeList, Except.map, h3]
    · subst hbb
      refine ⟨?_, ?_, ?_⟩
      · simp [scanStr, h1]
        omega
      · simp [scanStrState, h2]
      · simp [unescapeList, Except.map, h3]
    · subst hf
      refine ⟨?_, ?_, ?_⟩
      · simp [scanStr, h1]
        omega
      · simp [scanStrState, h2]
      · simp [unescapeList, Except.map, h3]
    · subst hn
      refine ⟨?_, ?_, ?_⟩
      · simp [scanStr, h1]
        omega
      · simp [scanStrState, h2]
      · simp [unescapeList, Except.map, h3]
    · subst hr
      refine ⟨?_, ?_, ?_⟩
      · simp [scanStr, h1]
        omega
      · simp [scanStrState, h2]
      · simp [unescapeList, Except.map, h3]
    · subst ht
      refine ⟨?_, ?_, ?_⟩
      · simp [scanStr, h1]
        omega
      · simp [scanStrState, h2]
      · simp [unescapeList, Except.map, h3]
    · refine ⟨?_, ?_, ?_⟩
      · simp [scanStr, hq, hnb, h1]
        omega
      · simp [scanStrState, hnb, h2]
      · simp [unescapeList, hnb, Except.map, h3]



theorem keyLt_irrefl (a : List Char) : keyLt a a = false := by
  by_contra h
  rw [Bool.not_eq_false] at h
  exact keyLt_asymm a a h h

theorem prescan_zero (o c : Char) (l : List Char) : prescan o c l 0 = (0, 0) := by
  cases l with
  | nil => rfl
  | cons x xs => simp [prescan]

theorem staysOpen_append (o c : Char) :
    ∀ (as bs : List Char) (d : Nat),
      staysOpen o c (as ++ bs) d =
        (staysOpen o c as d && staysOpen o c bs (finalDepth o c as d)) := by
  intro as
  induction as with
  | nil => intro bs d; simp [staysOpen, finalDepth]
  | cons x xs ih =>
    intro bs d
    rw [List.cons_append, staysOpen, staysOpen, finalDepth, ih]
    rw [Bool.and_assoc]

theorem finalDepth_append (o c : Char) :
    ∀ (as bs : List Char) (d : Nat),
      finalDepth o c (as ++ bs) d = finalDepth o c bs (finalDepth o c as d) := by
  intro as
  induction as with
  | nil => intro bs d; simp [finalDepth]
  | cons x xs ih =>
    intro bs d
    rw [List.cons_append, finalDepth, finalDepth, ih]

theorem prescan_append (o c : Char) :
    ∀ (cs rest : List Char) (d : Nat), d ≠ 0 → staysOpen o c cs d = true →
      prescan o c (cs ++ rest) d =
        ((prescan o c rest (finalDepth o c cs d)).1 + cs.length,
         (prescan o c rest (finalDepth o c cs d)).2) := by
  intro cs
  induction cs with
  | nil => intro rest d hd hst; simp [finalDepth]
  | cons x xs ih =>
    intro rest d hd hst
    rw [staysOpen, Bool.and_eq_true] at hst
    have hstep : depthStep o c x d ≠ 0 := by
      have := hst.1
      simpa using this
    rw [List.cons_append, prescan, if_neg hd]
    simp only
    rw [show (if x = o then d + 1 else if x = c then d - 1 else d) = depthStep o c x d
        from rfl]
    rw [ih rest _ hstep hst.2, finalDepth]
    simp
    omega

theorem staysOpen_of_no_delims (o c : Char) :
    ∀ (cs : List Char) (d : Nat), d ≠ 0 → (∀ x ∈ cs, x ≠ o ∧ x ≠ c) →
      staysOpen o c cs d = true ∧ finalDepth o c cs d = d := by
  intro cs
  induction cs with
  | nil => intro d hd _; exact ⟨rfl, rfl⟩
  | cons x xs ih =>
    intro d hd hx
    have h1 := hx x (List.mem_cons_self _ _)
    have hstep : depthStep o c x d = d := by
      rw [depthStep, if_neg h1.1, if_neg h1.2]
    obtain ⟨ha, hb⟩ := ih d hd (fun y hy => hx y (List.mem_cons_of_mem _ hy))
    rw [staysOpen, finalDepth, hstep]
    exact ⟨by simp [ha, hd], hb⟩

theorem escapeChar_members (c x : Char) (hx : x ∈ escapeChar c) :
    x = c ∨ x ∈ ('\\' :: '"' :: '/' :: 'b' :: 'f' :: 'n' :: 'r' :: 't' :: []) := by
  rw [escapeChar] at hx
  split_ifs at hx with h1 h2 h3 h4 h5 h6 h7 h8
  · simp only [List.mem_cons, List.not_mem_nil, or_false] at hx
    rcases hx with rfl | rfl <;> simp
  · simp only [List.mem_cons, List.not_mem_nil, or_false] at hx
    rcases hx with rfl | rfl <;> simp
  · simp only [List.mem_cons, List.not_mem_nil, or_false] at hx
    rcases hx with rfl | rfl <;> simp
  · simp only [List.mem_cons, List.not_mem_nil, or_false] at hx
    rcases hx with rfl | rfl <;> simp
  · simp only [List.mem_cons, List.not_mem_nil, or_false] at hx
    rcases hx with rfl | rfl <;> simp
  · simp only [List.mem_cons, List.not_mem_nil, or_false] at hx
    rcases hx with rfl | rfl <;> simp
  · simp only [List.mem_cons, List.not_mem_nil, or_false] at hx
    rcases hx with rfl | rfl <;> simp
  · simp only [List.mem_cons, List.not_mem_nil, or_false] at hx
    rcases hx with rfl | rfl <;> simp
  · simp only [List.mem_cons, List.not_mem_nil, or_false] at hx
    exact .inl hx

theorem escapeStr_members (s : List Char) (x : Char) (hx : x ∈ escapeStr s) :
    (∃ c ∈ s, x = c) ∨ x ∈ ('\\' :: '"' :: '/' :: 'b' :: 'f' :: 'n' :: 'r' :: 't' :: []) := by
  rw [escapeStr, List.mem_flatten] at hx
  obtain ⟨l, hl, hxl⟩ := hx
  rw [List.mem_map] at hl
  obtain ⟨c0, hc0, rfl⟩ := hl
  rcases escapeChar_members c0 x hxl with h | h
  · exact .inl ⟨c0, hc0, h⟩
  · exact .inr h



/-- A character segment through which the container pre-scan's depth never
drops to zero and ends where it started. -/
def neutralSeg (o c : Char) (cs : List Char) : Prop :=
  ∀ d : Nat, d ≠ 0 → staysOpen o c cs d = true ∧ finalDepth o c cs d = d

theorem neutralSeg_append {o c : Char} {as bs : List Char}
    (ha : neutralSeg o c as) (hb : neutralSeg o c bs) :
    neutralSeg o c (as ++ bs) := by
  intro d hd
  obtain ⟨ha1, ha2⟩ := ha d hd
  obtain ⟨hb1, hb2⟩ := hb d hd
  rw [staysOpen_append, finalDepth_append, ha2, ha1, hb1, hb2]
  exact ⟨rfl, rfl⟩

theorem neutralSeg_of_no_delims {o c : Char} {cs : List Char}
    (h : ∀ x ∈ cs, x ≠ o ∧ x ≠ c) : neutralSeg o c cs :=
  fun d hd => staysOpen_of_no_delims o c cs d hd h

theorem neutralSeg_cons {o c x : Char} {cs : List Char}
    (hx : x ≠ o ∧ x ≠ c) (h : neutralSeg o c cs) :
    neutralSeg o c (x :: cs) := by
  intro d hd
  have hstep : depthStep o c x d = d := by
    rw [depthStep, if_neg hx.1, if_neg hx.2]
  obtain ⟨h1, h2⟩ := h d hd
  rw [staysOpen, finalDepth, hstep, h1, h2]
  simp [hd]

theorem safeKey_escapeStr_no_delims {o c : Char} {s : List Char}
    (hoc : (o = '[' ∧ c = ']') ∨ (o = '\x7b' ∧ c = '\x7d'))
    (hs : safeKey s = true) :
    ∀ x ∈ escapeStr s, x ≠ o ∧ x ≠ c := by
  intro x hx
  rcases escapeStr_members s x hx with ⟨c0, hc0, hxc⟩ | h
  · have hsc : safeChar x = true := by
      rw [hxc]
      rw [safeKey, List.all_eq_true] at hs
      simpa using hs c0 hc0
    rw [safeChar] at hsc
    simp only [Bool.and_eq_true, decide_eq_true_eq] at hsc
    rcases hoc with ⟨rfl, rfl⟩ | ⟨rfl, rfl⟩
    · exact ⟨hsc.1.1.1.2, hsc.1.1.2⟩
    · exact ⟨hsc.1.2, hsc.2⟩
  · rcases hoc with ⟨rfl, rfl⟩ | ⟨rfl, rfl⟩ <;> (fin_cases h <;> exact ⟨by decide, by decide⟩)

mutual

theorem render_neutral : ∀ v : Value, safeVal v = true →
    ∀ o c : Char, (o = '[' ∧ c = ']') ∨ (o = '\x7b' ∧ c = '\x7d') →
    neutralSeg o c (render v)
  | .null => by
    intro _ o c hoc
    refine neutralSeg_of_no_delims ?_
    intro x hx
    rcases hoc with ⟨rfl, rfl⟩ | ⟨rfl, rfl⟩ <;> (fin_cases hx <;> exact ⟨by decide, by decide⟩)
  | .bool b => by
    intro _ o c hoc
    refine neutralSeg_of_no_delims ?_
    intro x hx
    cases b <;> rw [render] at hx <;>
      (rcases hoc with ⟨rfl, rfl⟩ | ⟨rfl, rfl⟩ <;> (fin_cases hx <;> exact ⟨by decide, by decide⟩))
  | .number n => by
    intro h o c hoc
    simp [safeVal] at h
  | .str s => by
    intro h o c hoc
    have hs : safeKey s = true := by simpa [safeVal] using h
    rw [render]
    refine neutralSeg_of_no_delims ?_
    intro x hx
    rcases List.mem_cons.mp hx with rfl | hx
    · rcases hoc with ⟨rfl, rfl⟩ | ⟨rfl, rfl⟩ <;> exact ⟨by decide, by decide⟩
    · rcases List.mem_append.mp hx with hx | hx
      · exact safeKey_escapeStr_no_delims hoc hs x hx
      · simp only [List.mem_singleton, List.mem_cons, List.not_mem_nil, or_false] at hx
        subst hx
        rcases hoc with ⟨rfl, rfl⟩ | ⟨rfl, rfl⟩ <;> exact ⟨by decide, by decide⟩
  | .arr xs => by
    intro h o c hoc
    have hxs : safeArr xs = true := by simpa [safeVal] using h
    have hinner := renderArr_neutral xs hxs o c hoc
    rw [render]
    intro d hd
    have hstep1 : depthStep o c '[' d ≠ 0 := by
      rcases hoc with ⟨rfl, rfl⟩ | ⟨rfl, rfl⟩ <;> simp [depthStep] <;> omega
    have hstep2 : depthStep o c ']' (depthStep o c '[' d) = d := by
      rcases hoc with ⟨rfl, rfl⟩ | ⟨rfl, rfl⟩ <;> simp [depthStep]
    obtain ⟨hi1, hi2⟩ := hinner (depthStep o c '[' d) hstep1
    constructor
    · rw [staysOpen, staysOpen_append, hi1]
      simp only [Bool.true_and, hi2]
      rw [staysOpen, staysOpen]
      simp [hstep1, hstep2, hd]
    · rw [finalDepth, finalDepth_append, hi2, finalDepth, finalDepth, hstep2]
  | .obj kvs => by
    intro h o c hoc
    have hkvs : safeObj kvs = true := by simpa [safeVal] using h
    have hinner := renderObj_neutral kvs hkvs o c hoc
    rw [render]
    intro d hd
    have hstep1 : depthStep o c '\x7b' d ≠ 0 := by
      rcases hoc with ⟨rfl, rfl⟩ | ⟨rfl, rfl⟩ <;> simp [depthStep] <;> omega
    have hstep2 : depthStep o c '\x7d' (depthStep o c '\x7b' d) = d := by
      rcases hoc with ⟨rfl, rfl⟩ | ⟨rfl, rfl⟩ <;> simp [depthStep]
    obtain ⟨hi1, hi2⟩ := hinner (depthStep o c '\x7b' d) hstep1
    constructor
    · rw [staysOpen, staysOpen_append, hi1]
      simp only [Bool.true_and, hi2]
      rw [staysOpen, staysOpen]
      simp [hstep1, hstep2, hd]
    · rw [finalDepth, finalDepth_append, hi2, finalDepth, finalDepth, hstep2]

theorem renderArr_neutral : ∀ xs : List Value, safeArr xs = true →
    ∀ o c : Char, (o = '[' ∧ c = ']') ∨ (o = '\x7b' ∧ c = '\x7d') →
    neutralSeg o c (renderArr xs)
  | [] => by
    intro _ o c _ d hd
    exact ⟨rfl, rfl⟩
  | x :: [] => by
    intro h o c hoc
    rw [renderArr]
    rw [safeArr, Bool.and_eq_true] at h
    exact render_neutral x h.1 o c hoc
  | x :: y :: rest => by
    intro h o c hoc
    rw [renderArr]
    rw [safeArr, Bool.and_eq_true] at h
    refine neutralSeg_append (render_neutral x h.1 o c hoc) ?_
    refine neutralSeg_cons ?_ (renderArr_neutral (y :: rest) h.2 o c hoc)
    rcases hoc with ⟨rfl, rfl⟩ | ⟨rfl, rfl⟩ <;> exact ⟨by decide, by decide⟩

theorem renderObj_neutral : ∀ kvs : List (List Char × Value), safeObj kvs = true →
    ∀ o c : Char, (o = '[' ∧ c = ']') ∨ (o = '\x7b' ∧ c = '\x7d') →
    neutralSeg o c (renderObj kvs)
  | [] => by
    intro _ o c _ d hd
    exact ⟨rfl, rfl⟩
  | (k, v) :: [] => by
    intro h o c hoc
    rw [renderObj]
    rw [safeObj, Bool.and_eq_true, Bool.and_eq_true, Bool.and_eq_true] at h
    have hq : ('"' : Char) ≠ o ∧ ('"' : Char) ≠ c := by
      rcases hoc with ⟨rfl, rfl⟩ | ⟨rfl, rfl⟩ <;> exact ⟨by decide, by decide⟩
    have hcol : (':' : Char) ≠ o ∧ (':' : Char) ≠ c := by
      rcases hoc with ⟨rfl, rfl⟩ | ⟨rfl, rfl⟩ <;> exact ⟨by decide, by decide⟩
    refine neutralSeg_cons hq ?_
    refine neutralSeg_append
      (neutralSeg_of_no_delims (safeKey_escapeStr_no_delims hoc h.1.1.1)) ?_
    refine neutralSeg_cons hq (neutralSeg_cons hcol ?_)
    exact render_neutral v h.1.1.2 o c hoc
  | (k, v) :: kv :: rest => by
    intro h o c hoc
    rw [renderObj]
    rw [safeObj, Bool.and_eq_true, Bool.and_eq_true, Bool.and_eq_true] at h
    have hq : ('"' : Char) ≠ o ∧ ('"' : Char) ≠ c := by
      rcases hoc with ⟨rfl, rfl⟩ | ⟨rfl, rfl⟩ <;> exact ⟨by decide, by decide⟩
    have hcol : (':' : Char) ≠ o ∧ (':' : Char) ≠ c := by
      rcases hoc with ⟨rfl, rfl⟩ | ⟨rfl, rfl⟩ <;> exact ⟨by decide, by decide⟩
    have hcom : (',' : Char) ≠ o ∧ (',' : Char) ≠ c := by
      rcases hoc with ⟨rfl, rfl⟩ | ⟨rfl, rfl⟩ <;> exact ⟨by decide, by decide⟩
    refine neutralSeg_append ?_ ?_
    · refine neutralSeg_cons hq ?_
      refine neutralSeg_append
        (neutralSeg_of_no_delims (safeKey_escapeStr_no_delims hoc h.1.1.1)) ?_
      refine neutralSeg_cons hq (neutralSeg_cons hcol ?_)
      exact render_neutral v h.1.1.2 o c hoc
    · exact neutralSeg_cons hcom (renderObj_neutral (kv :: rest) h.2 o c hoc)

end



theorem btreeInsert_append_of_lt (k : List Char) (v : Value) :
    ∀ acc : List (List Char × Value), (∀ e ∈ acc, keyLt e.1 k = true) →
      btreeInsert k v acc = acc ++ ((k, v) :: []) := by
  intro acc
  induction acc with
  | nil => intro _; rfl
  | cons e rest ih =>
    obtain ⟨k', v'⟩ := e
    intro h
    have hk' : keyLt k' k = true := h (k', v') (List.mem_cons_self _ _)
    have h1 : ¬(keyLt k k' = true) := fun hkk => keyLt_asymm _ _ hkk hk'
    have h2 : ¬(k = k') := by
      intro heq
      rw [heq] at hk'
      rw [keyLt_irrefl] at hk'
      exact Bool.false_ne_true hk'
    rw [btreeInsert, if_neg h1, if_neg h2, ih (fun e he => h e (List.mem_cons_of_mem _ he))]
    rfl

theorem safeObj_head_lt : ∀ (rest : List (List Char × Value)) (k : List Char) (v : Value),
    safeObj ((k, v) :: rest) = true → ∀ r ∈ rest, keyLt k r.1 = true := by
  intro rest
  induction rest with
  | nil => intro k v _ r hr; simp at hr
  | cons e rest ih =>
    obtain ⟨k2, v2⟩ := e
    intro k v h r hr
    rw [safeObj, Bool.and_eq_true, Bool.and_eq_true, Bool.and_eq_true] at h
    have hadj : keyLt k k2 = true := h.1.2
    rcases List.mem_cons.mp hr with rfl | hr
    · exact hadj
    · exact keyLt_trans _ _ _ hadj (ih k2 v2 h.2 r hr)

theorem render_length_pos : ∀ v : Value, safeVal v = true → 1 ≤ (render v).length := by
  intro v hv
  cases v with
  | null => simp [render]
  | bool b => cases b <;> simp [render]
  | number n => simp [safeVal] at hv
  | str s => simp [render]
  | arr xs => simp [render]
  | obj kvs => simp [render]

mutual

theorem sizeVal_le : ∀ v : Value, safeVal v = true → sizeVal v ≤ 2 * (render v).length
  | .null => by intro _; simp [sizeVal, render]
  | .bool b => by intro _; cases b <;> simp [sizeVal, render]
  | .number n => by intro h; simp [safeVal] at h
  | .str s => by
    intro _
    simp only [sizeVal, render, List.length_cons, List.length_append]
    omega
  | .arr xs => by
    intro h
    have hxs : safeArr xs = true := by simpa [safeVal] using h
    have := sizeArr_le xs hxs
    rw [sizeVal, render]
    simp only [List.length_cons, List.length_append, List.length_singleton]
    omega
  | .obj kvs => by
    intro h
    have hkvs : safeObj kvs = true := by simpa [safeVal] using h
    have := sizeObj_le kvs hkvs
    rw [sizeVal, render]
    simp only [List.length_cons, List.length_append, List.length_singleton]
    omega

theorem sizeArr_le : ∀ xs : List Value, safeArr xs = true →
    sizeArr xs ≤ 2 * (renderArr xs).length + 2
  | [] => by intro _; simp [sizeArr, renderArr]
  | x :: [] => by
    intro h
    rw [safeArr, Bool.and_eq_true] at h
    have h1 := sizeVal_le x h.1
    have h2 := render_length_pos x h.1
    rw [sizeArr, sizeArr, renderArr]
    omega
  | x :: y :: rest => by
    intro h
    rw [safeArr, Bool.and_eq_true] at h
    have h1 := sizeVal_le x h.1
    have h2 := sizeArr_le (y :: rest) h.2
    rw [sizeArr, renderArr]
    simp only [List.length_append, List.length_cons]
    omega

theorem sizeObj_le : ∀ kvs : List (List Char × Value), safeObj kvs = true →
    sizeObj kvs ≤ 2 * (renderObj kvs).length + 2
  | [] => by intro _; simp [sizeObj, renderObj]
  | (k, v) :: [] => by
    intro h
    rw [safeObj, Bool.and_eq_true, Bool.and_eq_true, Bool.and_eq_true] at h
    have h1 := sizeVal_le v h.1.1.2
    rw [sizeObj, sizeObj, renderObj]
    simp only [List.length_cons, List.length_append]
    omega
  | (k, v) :: kv :: rest => by
    intro h
    rw [safeObj, Bool.and_eq_true, Bool.and_eq_true, Bool.and_eq_true] at h
    have h1 := sizeVal_le v h.1.1.2
    have h2 := sizeObj_le (kv :: rest) h.2
    rw [sizeObj, renderObj]
    simp only [List.length_cons, List.length_append]
    omega

end



theorem drop_add (input : List Char) (p n : Nat) :
    input.drop (p + n) = (input.drop p).drop n := by
  rw [List.drop_drop, Nat.add_comm]

theorem renderArr_cons_eq (x : Value) (rest : List Value) :
    renderArr (x :: rest) = render x ++ renderArrTail rest := by
  cases rest with
  | nil => simp [renderArr, renderArrTail]
  | cons y ys => simp [renderArr, renderArrTail]

theorem renderObj_cons_eq (k : List Char) (v : Value)
    (rest : List (List Char × Value)) :
    renderObj ((k, v) :: rest) =
      ('"' :: (escapeStr k ++ ('"' :: ':' :: render v))) ++ renderObjTail rest := by
  cases rest with
  | nil => simp [renderObj, renderObjTail]
  | cons kv kvs => simp [renderObj, renderObjTail]

theorem render_head : ∀ v : Value, safeVal v = true →
    ∃ c : Char, ∃ cs : List Char, render v = c :: cs ∧ isSkipChar c = false := by
  intro v hv
  cases v with
  | null => exact ⟨'n', _, rfl, by decide⟩
  | bool b =>
    cases b with
    | false => exact ⟨'f', _, rfl, by decide⟩
    | true => exact ⟨'t', _, rfl, by decide⟩
  | number n => simp [safeVal] at hv
  | str s => exact ⟨'"', _, rfl, by decide⟩
  | arr xs => exact ⟨'[', _, rfl, by decide⟩
  | obj kvs => exact ⟨'\x7b', _, rfl, by decide⟩

theorem sizeVal_pos (v : Value) : 1 ≤ sizeVal v := by
  cases v <;> simp [sizeVal]

theorem sizeArr_pos (xs : List Value) : 1 ≤ sizeArr xs := by
  cases xs with
  | nil => simp [sizeArr]
  | cons x rest =>
    simp [sizeArr]
    omega

theorem sizeObj_pos (kvs : List (List Char × Value)) : 1 ≤ sizeObj kvs := by
  cases kvs with
  | nil => simp [sizeObj]
  | cons kv rest =>
    obtain ⟨k, v⟩ := kv
    simp [sizeObj]
    omega

theorem lt_length_of_drop_cons {input : List Char} {pos : Nat} {c : Char}
    {rest : List Char} (h : input.drop pos = c :: rest) : pos < input.length := by
  by_contra hge
  rw [List.drop_eq_nil_of_le (by omega)] at h
  exact absurd h (by simp)



theorem safeObj_parts {k : List Char} {v : Value} {rest : List (List Char × Value)}
    (h : safeObj ((k, v) :: rest) = true) :
    safeKey k = true ∧ safeVal v = true ∧ safeObj rest = true := by
  cases rest with
  | nil =>
    rw [safeObj, Bool.and_eq_true, Bool.and_eq_true, Bool.and_eq_true] at h
    exact ⟨h.1.1.1, h.1.1.2, rfl⟩
  | cons kv2 rest2 =>
    obtain ⟨k2, v2⟩ := kv2
    rw [safeObj, Bool.and_eq_true, Bool.and_eq_true, Bool.and_eq_true] at h
    exact ⟨h.1.1.1, h.1.1.2, h.2⟩

mutual

theorem parse_render_at : ∀ v : Value, safeVal v = true →
    ∀ (input tail : List Char) (pos fuel : Nat),
      sizeVal v ≤ fuel →
      input.drop pos = render v ++ tail →
      parse fuel input pos = .ok (v, pos + (render v).length)
  | .null => by
    intro _ input tail pos fuel hfuel hdrop
    have hf1 : 1 ≤ fuel := le_trans (sizeVal_pos _) hfuel
    obtain ⟨g, rfl⟩ : ∃ g, fuel = g + 1 := ⟨fuel - 1, by omega⟩
    rw [render] at hdrop
    have hlt : pos < input.length := lt_length_of_drop_cons (by simpa using hdrop)
    have hch : charAt input pos = 'n' := charAt_of_drop_cons (by simpa using hdrop)
    have hsw : skipWhitespace input pos = pos :=
      skipWhitespace_no_skip hlt (by rw [hch]; decide)
    have hlen4 : pos + 4 ≤ input.length := by
      have := congrArg List.length hdrop
      rw [List.length_drop] at this
      simp at this
      omega
    have hreq : requireChars ('n' :: 'u' :: 'l' :: 'l' :: []) input pos = .ok (pos + 4) := by
      have := requireChars_of_take ('n' :: 'u' :: 'l' :: 'l' :: [])
        input pos (by rw [hdrop]; rfl) (by simpa using hlen4)
      simpa using this
    rw [parse, if_neg (by omega)]
    simp only [hsw, hch, if_true, parseNull, hreq]
    rfl
  | .bool true => by
    intro _ input tail pos fuel hfuel hdrop
    have hf1 : 1 ≤ fuel := le_trans (sizeVal_pos _) hfuel
    obtain ⟨g, rfl⟩ : ∃ g, fuel = g + 1 := ⟨fuel - 1, by omega⟩
    rw [render] at hdrop
    have hlt : pos < input.length := lt_length_of_drop_cons (by simpa using hdrop)
    have hch : charAt input pos = 't' := charAt_of_drop_cons (by simpa using hdrop)
    have hsw : skipWhitespace input pos = pos :=
      skipWhitespace_no_skip hlt (by rw [hch]; decide)
    have hlen4 : pos + 4 ≤ input.length := by
      have := congrArg List.length hdrop
      rw [List.length_drop] at this
      simp at this
      omega
    have hdrop1 : input.drop (pos + 1) = 'r' :: 'u' :: 'e' :: tail :=
      drop_succ_of_drop_cons (by simpa using hdrop)
    have hreq : requireChars ('r' :: 'u' :: 'e' :: []) input (pos + 1) = .ok (pos + 4) := by
      have := requireChars_of_take ('r' :: 'u' :: 'e' :: [])
        input (pos + 1) (by rw [hdrop1]; rfl) (by simpa using hlen4)
      have h4 : pos + 1 + ('r' :: 'u' :: 'e' :: [] : List Char).length = pos + 4 := by
        simp
      rw [h4] at this
      exact this
    rw [parse, if_neg (by omega)]
    simp only [hsw, hch, parseBool, hreq]
    rfl
  | .bool false => by
    intro _ input tail pos fuel hfuel hdrop
    have hf1 : 1 ≤ fuel := le_trans (sizeVal_pos _) hfuel
    obtain ⟨g, rfl⟩ : ∃ g, fuel = g + 1 := ⟨fuel - 1, by omega⟩
    rw [render] at hdrop
    have hlt : pos < input.length := lt_length_of_drop_cons (by simpa using hdrop)
    have hch : charAt input pos = 'f' := charAt_of_drop_cons (by simpa using hdrop)
    have hsw : skipWhitespace input pos = pos :=
      skipWhitespace_no_skip hlt (by rw [hch]; decide)
    have hlen5 : pos + 5 ≤ input.length := by
      have := congrArg List.length hdrop
      rw [List.length_drop] at this
      simp at this
      omega
    have hdrop1 : input.drop (pos + 1) = 'a' :: 'l' :: 's' :: 'e' :: tail :=
      drop_succ_of_drop_cons (by simpa using hdrop)
    have hreq : requireChars ('a' :: 'l' :: 's' :: 'e' :: []) input (pos + 1)
        = .ok (pos + 5) := by
      have := requireChars_of_take ('a' :: 'l' :: 's' :: 'e' :: [])
        input (pos + 1) (by rw [hdrop1]; rfl) (by simpa using hlen5)
      have h5 : pos + 1 + ('a' :: 'l' :: 's' :: 'e' :: [] : List Char).length = pos + 5 := by
        simp
      rw [h5] at this
      exact this
    rw [parse, if_neg (by omega)]
    simp only [hsw, hch, parseBool, hreq]
    rfl
  | .number n => by
    intro hv
    simp [safeVal] at hv
  | .str s => by
    intro hv input tail pos fuel hfuel hdrop
    have hs : safeKey s = true := by simpa [safeVal] using hv
    have hf1 : 1 ≤ fuel := le_trans (sizeVal_pos _) hfuel
    obtain ⟨g, rfl⟩ : ∃ g, fuel = g + 1 := ⟨fuel - 1, by omega⟩
    rw [render] at hdrop
    have hdrop' : input.drop pos = '"' :: (escapeStr s ++ '"' :: tail) := by
      rw [hdrop]
      simp
    have hlt : pos < input.length := lt_length_of_drop_cons hdrop'
    have hch : charAt input pos = '"' := charAt_of_drop_cons hdrop'
    have hsw : skipWhitespace input pos = pos :=
      skipWhitespace_no_skip hlt (by rw [hch]; decide)
    obtain ⟨h1, h2, h3⟩ := escapeStr_round s hs
    have hps : parseString input pos = .ok (s, pos + 1 + (escapeStr s).length + 1) :=
      parseString_at input (escapeStr s) tail s pos
        (drop_succ_of_drop_cons hdrop') h1 h2 h3
    rw [parse, if_neg (by omega)]
    simp only [hsw, hch, hps]
    have hlen2 : pos + 1 + (escapeStr s).length + 1 = pos + (render (Value.str s)).length := by
      simp [render]
      omega
    rw [hlen2]
    rfl
  | .arr xs => by
    intro hv input tail pos fuel hfuel hdrop
    have hxs : safeArr xs = true := by simpa [safeVal] using hv
    rw [sizeVal] at hfuel
    obtain ⟨g, rfl⟩ : ∃ g, fuel = g + 1 := ⟨fuel - 1, by omega⟩
    have hg : sizeArr xs ≤ g := by omega
    rw [render] at hdrop
    have hdrop' : input.drop pos = '[' :: (renderArr xs ++ ']' :: tail) := by
      rw [hdrop]
      simp
    have hlt : pos < input.length := lt_length_of_drop_cons hdrop'
    have hch : charAt input pos = '[' := charAt_of_drop_cons hdrop'
    have hsw : skipWhitespace input pos = pos :=
      skipWhitespace_no_skip hlt (by rw [hch]; decide)
    have hdrop1 : input.drop (pos + 1) = renderArr xs ++ ']' :: tail :=
      drop_succ_of_drop_cons hdrop'
    have hneut := renderArr_neutral xs hxs '[' ']' (.inl ⟨rfl, rfl⟩) 1 (by omega)
    have hpre : prescan '[' ']' (input.drop (pos + 1)) 1
        = ((renderArr xs).length + 1, 0) := by
      have hp2 : prescan '[' ']' (']' :: tail) 1 = (1, 0) := by
        rw [prescan]
        simp [prescan_zero]
      rw [hdrop1, prescan_append '[' ']' (renderArr xs) (']' :: tail) 1 (by omega) hneut.1,
        hneut.2, hp2]
      simp [Nat.add_comm]
    have hpre1 : (prescan '[' ']' (input.drop (pos + 1)) 1).1 = (renderArr xs).length + 1 := by
      rw [hpre]
    have hpre2 : (prescan '[' ']' (input.drop (pos + 1)) 1).2 = 0 := by
      rw [hpre]
    have hstop : pos + 1 + ((renderArr xs).length + 1)
        = pos + (render (Value.arr xs)).length := by
      simp [render]
      omega
    have harr : arrLoop g input (pos + 1 + ((renderArr xs).length + 1)) (pos + 1) []
        = .ok (xs, pos + 1 + ((renderArr xs).length + 1)) := by
      cases xs with
      | nil =>
        have := arrLoop_render_at [] rfl input tail
          (pos + 1 + ((renderArr []).length + 1)) (pos + 1) g [] (by simpa [sizeArr] using hg)
          (by simpa [renderArrTail] using hdrop1)
          (by simp [renderArrTail, renderArr])
        simpa using this
      | cons x rest =>
        rw [safeArr, Bool.and_eq_true] at hxs
        rw [renderArr_cons_eq] at hdrop1
        obtain ⟨g', rfl⟩ : ∃ g', g = g' + 1 := ⟨g - 1, by
          have := sizeArr_pos (x :: rest)
          omega⟩
        rw [sizeArr] at hg
        have hdx : input.drop (pos + 1) = render x ++ (renderArrTail rest ++ ']' :: tail) := by
          rw [hdrop1]
          simp
        obtain ⟨cx, csx, hcx, hcsk⟩ := render_head x hxs.1
        have hchx : charAt input (pos + 1) = cx :=
          charAt_of_drop_cons (by rw [hdx, hcx]; rfl)
        have hltx : pos + 1 < input.length :=
          lt_length_of_drop_cons (by rw [hdx, hcx]; rfl)
        have hswx : skipWhitespace input (pos + 1) = pos + 1 :=
          skipWhitespace_no_skip hltx (by rw [hchx]; exact hcsk)
        have hpx : parse g' input (pos + 1) = .ok (x, pos + 1 + (render x).length) :=
          parse_render_at x hxs.1 input (renderArrTail rest ++ ']' :: tail)
            (pos + 1) g' (by omega) hdx
        have hdrest : input.drop (pos + 1 + (render x).length)
            = renderArrTail rest ++ ']' :: tail := by
          rw [drop_add, hdx, List.drop_left]
        have hrest := arrLoop_render_at rest (by
            rcases rest with _ | ⟨y, ys⟩
            · rfl
            · exact hxs.2) input tail
          (pos + 1 + ((renderArr (x :: rest)).length + 1))
          (pos + 1 + (render x).length) g' ([] ++ (x :: []))
          (by omega) hdrest
          (by
            rw [renderArr_cons_eq]
            simp only [List.length_append, List.length_cons]
            omega)
        rw [arrLoop, if_pos (by
          rw [renderArr_cons_eq]
          have := render_length_pos x hxs.1
          simp only [List.length_append, List.length_cons]
          omega)]
        simp only [hswx, hpx, hrest]
        simp
    rw [parse, if_neg (by omega)]
    simp only [hsw, hch, hpre1, hpre2]
    simp only [harr]
    simp only [hstop]
    simp [isAsciiDigit]
  | .obj kvs => by
    intro hv input tail pos fuel hfuel hdrop
    have hkvs : safeObj kvs = true := by simpa [safeVal] using hv
    rw [sizeVal] at hfuel
    obtain ⟨g, rfl⟩ : ∃ g, fuel = g + 1 := ⟨fuel - 1, by omega⟩
    have hg : sizeObj kvs ≤ g := by omega
    rw [render] at hdrop
    have hdrop' : input.drop pos = '\x7b' :: (renderObj kvs ++ '\x7d' :: tail) := by
      rw [hdrop]
      simp
    have hlt : pos < input.length := lt_length_of_drop_cons hdrop'
    have hch : charAt input pos = '\x7b' := charAt_of_drop_cons hdrop'
    have hsw : skipWhitespace input pos = pos :=
      skipWhitespace_no_skip hlt (by rw [hch]; decide)
    have hdrop1 : input.drop (pos + 1) = renderObj kvs ++ '\x7d' :: tail :=
      drop_succ_of_drop_cons hdrop'
    have hneut := renderObj_neutral kvs hkvs '\x7b' '\x7d' (.inr ⟨rfl, rfl⟩) 1 (by omega)
    have hpre : prescan '\x7b' '\x7d' (input.drop (pos + 1)) 1
        = ((renderObj kvs).length + 1, 0) := by
      have hp2 : prescan '\x7b' '\x7d' ('\x7d' :: tail) 1 = (1, 0) := by
        rw [prescan]
        simp [prescan_zero]
      rw [hdrop1,
        prescan_append '\x7b' '\x7d' (renderObj kvs) ('\x7d' :: tail) 1 (by omega) hneut.1,
        hneut.2, hp2]
      simp [Nat.add_comm]
    have hpre1 : (prescan '\x7b' '\x7d' (input.drop (pos + 1)) 1).1
        = (renderObj kvs).length + 1 := by
      rw [hpre]
    have hpre2 : (prescan '\x7b' '\x7d' (input.drop (pos + 1)) 1).2 = 0 := by
      rw [hpre]
    have hstop : pos + 1 + ((renderObj kvs).length + 1)
        = pos + (render (Value.obj kvs)).length := by
      simp [render]
      omega
    have hobj : objLoop g input (pos + 1 + ((renderObj kvs).length + 1)) (pos + 1) []
        = .ok (kvs, pos + 1 + ((renderObj kvs).length + 1)) := by
      cases kvs with
      | nil =>
        have := objLoop_render_at [] rfl input tail
          (pos + 1 + ((renderObj []).length + 1)) (pos + 1) g [] (by simpa [sizeObj] using hg)
          (by simpa [renderObjTail] using hdrop1)
          (by simp [renderObjTail, renderObj])
          (by intro e he; simp at he)
        simpa using this
      | cons kv rest =>
        obtain ⟨k, v⟩ := kv
        have hkvs' := hkvs
        obtain ⟨hsk, hsv, hsrest⟩ := safeObj_parts hkvs
        rw [renderObj_cons_eq] at hdrop1
        obtain ⟨g', rfl⟩ : ∃ g', g = g' + 1 := ⟨g - 1, by
          have := sizeObj_pos ((k, v) :: rest)
          omega⟩
        have hg' : 1 + sizeVal v + sizeObj rest ≤ g' + 1 := by
          have : sizeObj ((k, v) :: rest) = 1 + sizeVal v + sizeObj rest := rfl
          omega
        have hdx : input.drop (pos + 1)
            = '"' :: (escapeStr k ++ '"' ::
                (':' :: render v ++ (renderObjTail rest ++ '\x7d' :: tail))) := by
          rw [hdrop1]
          simp
        have hchx : charAt input (pos + 1) = '"' := charAt_of_drop_cons hdx
        have hltx : pos + 1 < input.length := lt_length_of_drop_cons hdx
        have hswx : skipWhitespace input (pos + 1) = pos + 1 :=
          skipWhitespace_no_skip hltx (by rw [hchx]; decide)
        obtain ⟨e1, e2, e3⟩ := escapeStr_round k hsk
        have hkey : parseString input (pos + 1)
            = .ok (k, pos + 1 + 1 + (escapeStr k).length + 1) :=
          parseString_at input (escapeStr k)
            (':' :: render v ++ (renderObjTail rest ++ '\x7d' :: tail)) k (pos + 1)
            (drop_succ_of_drop_cons hdx) e1 e2 e3
        have hdk : input.drop (pos + 1 + 1 + (escapeStr k).length + 1)
            = ':' :: (render v ++ (renderObjTail rest ++ '\x7d' :: tail)) := by
          have h1 : input.drop (pos + 1 + 1) = escapeStr k ++ '"' ::
              (':' :: render v ++ (renderObjTail rest ++ '\x7d' :: tail)) :=
            drop_succ_of_drop_cons hdx
          have h2 : input.drop (pos + 1 + 1 + (escapeStr k).length)
              = '"' :: (':' :: render v ++ (renderObjTail rest ++ '\x7d' :: tail)) := by
            rw [drop_add, h1, List.drop_left]
          have h3 := drop_succ_of_drop_cons h2
          rw [h3]
          simp
        have hswk : skipWhitespace input (pos + 1 + 1 + (escapeStr k).length + 1) = pos + 1 + 1 + (escapeStr k).length + 1 :=
          skipWhitespace_no_skip (lt_length_of_drop_cons hdk)
            (by rw [charAt_of_drop_cons hdk]; decide)
        have hreqc : requireChars (':' :: []) input (pos + 1 + 1 + (escapeStr k).length + 1) = .ok (pos + 1 + 1 + (escapeStr k).length + 1 + 1) := by
          have hl := congrArg List.length hdk
          rw [List.length_drop] at hl
          simp only [List.length_cons, List.length_append] at hl
          have := requireChars_of_take (':' :: [])
            input (pos + 1 + 1 + (escapeStr k).length + 1) (by rw [hdk]; rfl)
            (by
              simp only [List.length_cons, List.length_nil]
              omega)
          simpa using this
        have hdv : input.drop (pos + 1 + 1 + (escapeStr k).length + 1 + 1)
            = render v ++ (renderObjTail rest ++ '\x7d' :: tail) :=
          drop_succ_of_drop_cons hdk
        obtain ⟨cv, csv, hcv, hcsv⟩ := render_head v hsv
        have hswv : skipWhitespace input (pos + 1 + 1 + (escapeStr k).length + 1 + 1) = pos + 1 + 1 + (escapeStr k).length + 1 + 1 :=
          skipWhitespace_no_skip (lt_length_of_drop_cons (by rw [hdv, hcv]; rfl))
            (by rw [charAt_of_drop_cons (by rw [hdv, hcv]; rfl)]; exact hcsv)
        have hpv : parse g' input (pos + 1 + 1 + (escapeStr k).length + 1 + 1) = .ok (v, pos + 1 + 1 + (escapeStr k).length + 1 + 1 + (render v).length) :=
          parse_render_at v hsv input (renderObjTail rest ++ '\x7d' :: tail)
            (pos + 1 + 1 + (escapeStr k).length + 1 + 1) g' (by omega) hdv
        have hdrest : input.drop (pos + 1 + 1 + (escapeStr k).length + 1 + 1 + (render v).length)
            = renderObjTail rest ++ '\x7d' :: tail := by
          rw [drop_add, hdv, List.drop_left]
        have hrest := objLoop_render_at rest hsrest input tail
          (pos + 1 + ((renderObj ((k, v) :: rest)).length + 1))
          (pos + 1 + 1 + (escapeStr k).length + 1 + 1 + (render v).length) g' (((k, v) :: []))
          (by omega) hdrest
          (by
            rw [renderObj_cons_eq]
            simp only [List.length_append, List.length_cons]
            omega)
          (by
            intro e he r hr
            rcases List.mem_cons.mp he with rfl | he
            · exact safeObj_head_lt rest k v hkvs' r hr
            · simp at he)
        rw [objLoop, if_pos (by
          rw [renderObj_cons_eq]
          simp only [List.length_append, List.length_cons]
          omega)]
        simp only [hswx, hkey, hswk, hreqc, hswv, hpv]
        have hins : btreeInsert k v [] = (k, v) :: [] := rfl
        rw [hins, hrest]
        simp
    rw [parse, if_neg (by omega)]
    simp only [hsw, hch, hpre1, hpre2]
    simp only [hobj]
    simp only [hstop]
    simp [isAsciiDigit]

theorem arrLoop_render_at : ∀ rem : List Value, safeArr rem = true →
    ∀ (input tail : List Char) (stop pos fuel : Nat) (acc : List Value),
      sizeArr rem ≤ fuel →
      input.drop pos = renderArrTail rem ++ ']' :: tail →
      stop = pos + (renderArrTail rem).length + 1 →
      arrLoop fuel input stop pos acc = .ok (acc ++ rem, stop)
  | [] => by
    intro _ input tail stop pos fuel acc hfuel hdrop hstop
    have hf1 : 1 ≤ fuel := le_trans (sizeArr_pos _) hfuel
    obtain ⟨g, rfl⟩ : ∃ g, fuel = g + 1 := ⟨fuel - 1, by omega⟩
    rw [arrLoop, if_neg (by rw [hstop]; simp [renderArrTail])]
    rw [hstop]
    simp [renderArrTail]
  | y :: rest' => by
    intro hsafe input tail stop pos fuel acc hfuel hdrop hstop
    rw [safeArr, Bool.and_eq_true] at hsafe
    obtain ⟨g, rfl⟩ : ∃ g, fuel = g + 1 := ⟨fuel - 1, by
      have := sizeArr_pos (y :: rest')
      omega⟩
    have hfuel' : 1 + sizeVal y + sizeArr rest' ≤ g + 1 := by
      have : sizeArr (y :: rest') = 1 + sizeVal y + sizeArr rest' := rfl
      omega
    rw [renderArrTail, renderArr_cons_eq] at hdrop hstop
    have hdrop' : input.drop pos
        = ',' :: (render y ++ (renderArrTail rest' ++ ']' :: tail)) := by
      rw [hdrop]
      simp
    obtain ⟨cy, csy, hcy, hcsy⟩ := render_head y hsafe.1
    have hd1 : input.drop (pos + 1) = render y ++ (renderArrTail rest' ++ ']' :: tail) :=
      drop_succ_of_drop_cons hdrop'
    have hch1 : charAt input (pos + 1) = cy := charAt_of_drop_cons (by rw [hd1, hcy]; rfl)
    have hsw : skipWhitespace input pos = pos + 1 := by
      refine skipWhitespace_one_comma (charAt_of_drop_cons hdrop') ?_ ?_
      · exact lt_length_of_drop_cons (by rw [hd1, hcy]; rfl)
      · rw [hch1]; exact hcsy
    have hpy : parse g input (pos + 1) = .ok (y, pos + 1 + (render y).length) :=
      parse_render_at y hsafe.1 input (renderArrTail rest' ++ ']' :: tail)
        (pos + 1) g (by omega) hd1
    have hdrest : input.drop (pos + 1 + (render y).length)
        = renderArrTail rest' ++ ']' :: tail := by
      rw [drop_add, hd1, List.drop_left]
    have hrest := arrLoop_render_at rest' (by
        rcases rest' with _ | ⟨z, zs⟩
        · rfl
        · exact hsafe.2) input tail stop (pos + 1 + (render y).length) g (acc ++ (y :: []))
      (by omega) hdrest
      (by
        rw [hstop]
        simp only [List.length_append, List.length_cons]
        omega)
    rw [arrLoop, if_pos (by
      rw [hstop]
      have := render_length_pos y hsafe.1
      simp only [List.length_append, List.length_cons]
      omega)]
    simp only [hsw, hpy, hrest]
    simp

theorem objLoop_render_at : ∀ rem : List (List Char × Value), safeObj rem = true →
    ∀ (input tail : List Char) (stop pos fuel : Nat) (acc : List (List Char × Value)),
      sizeObj rem ≤ fuel →
      input.drop pos = renderObjTail rem ++ '\x7d' :: tail →
      stop = pos + (renderObjTail rem).length + 1 →
      (∀ e ∈ acc, ∀ r ∈ rem, keyLt e.1 r.1 = true) →
      objLoop fuel input stop pos acc = .ok (acc ++ rem, stop)
  | [] => by
    intro _ input tail stop pos fuel acc hfuel hdrop hstop _
    have hf1 : 1 ≤ fuel := le_trans (sizeObj_pos _) hfuel
    obtain ⟨g, rfl⟩ : ∃ g, fuel = g + 1 := ⟨fuel - 1, by omega⟩
    rw [objLoop, if_neg (by rw [hstop]; simp [renderObjTail])]
    rw [hstop]
    simp [renderObjTail]
  | (k, v) :: rest' => by
    intro hsafe input tail stop pos fuel acc hfuel hdrop hstop hacc
    have hsafe' := hsafe
    obtain ⟨hsk, hsv, hsrest⟩ := safeObj_parts hsafe
    obtain ⟨g, rfl⟩ : ∃ g, fuel = g + 1 := ⟨fuel - 1, by
      have := sizeObj_pos ((k, v) :: rest')
      omega⟩
    have hfuel' : 1 + sizeVal v + sizeObj rest' ≤ g + 1 := by
      have : sizeObj ((k, v) :: rest') = 1 + sizeVal v + sizeObj rest' := rfl
      omega
    rw [renderObjTail, renderObj_cons_eq] at hdrop hstop
    have hdrop' : input.drop pos
        = ',' :: ('"' :: (escapeStr k ++ '"' ::
            (':' :: render v ++ (renderObjTail rest' ++ '\x7d' :: tail)))) := by
      rw [hdrop]
      simp
    have hd1 : input.drop (pos + 1)
        = '"' :: (escapeStr k ++ '"' ::
            (':' :: render v ++ (renderObjTail rest' ++ '\x7d' :: tail))) :=
      drop_succ_of_drop_cons hdrop'
    have hsw : skipWhitespace input pos = pos + 1 := by
      refine skipWhitespace_one_comma (charAt_of_drop_cons hdrop') ?_ ?_
      · exact lt_length_of_drop_cons hd1
      · rw [charAt_of_drop_cons hd1]; decide
    obtain ⟨e1, e2, e3⟩ := escapeStr_round k hsk
    have hkey : parseString input (pos + 1)
        = .ok (k, pos + 1 + 1 + (escapeStr k).length + 1) :=
      parseString_at input (escapeStr k)
        (':' :: render v ++ (renderObjTail rest' ++ '\x7d' :: tail)) k (pos + 1)
        (drop_succ_of_drop_cons hd1) e1 e2 e3
    have hdk : input.drop (pos + 1 + 1 + (escapeStr k).length + 1)
        = ':' :: (render v ++ (renderObjTail rest' ++ '\x7d' :: tail)) := by
      have h1 : input.drop (pos + 1 + 1) = escapeStr k ++ '"' ::
          (':' :: render v ++ (renderObjTail rest' ++ '\x7d' :: tail)) :=
        drop_succ_of_drop_cons hd1
      have h2 : input.drop (pos + 1 + 1 + (escapeStr k).length)
          = '"' :: (':' :: render v ++ (renderObjTail rest' ++ '\x7d' :: tail)) := by
        rw [drop_add, h1, List.drop_left]
      have h3 := drop_succ_of_drop_cons h2
      rw [h3]
      simp
    have hswk : skipWhitespace input (pos + 1 + 1 + (escapeStr k).length + 1) = pos + 1 + 1 + (escapeStr k).length + 1 :=
      skipWhitespace_no_skip (lt_length_of_drop_cons hdk)
        (by rw [charAt_of_drop_cons hdk]; decide)
    have hreqc : requireChars (':' :: []) input (pos + 1 + 1 + (escapeStr k).length + 1) = .ok (pos + 1 + 1 + (escapeStr k).length + 1 + 1) := by
      have hl := congrArg List.length hdk
      rw [List.length_drop] at hl
      simp only [List.length_cons, List.length_append] at hl
      have := requireChars_of_take (':' :: [])
        input (pos + 1 + 1 + (escapeStr k).length + 1) (by rw [hdk]; rfl)
        (by
          simp only [List.length_cons, List.length_nil]
          omega)
      simpa using this
    have hdv : input.drop (pos + 1 + 1 + (escapeStr k).length + 1 + 1)
        = render v ++ (renderObjTail rest' ++ '\x7d' :: tail) :=
      drop_succ_of_drop_cons hdk
    obtain ⟨cv, csv, hcv, hcsv⟩ := render_head v hsv
    have hswv : skipWhitespace input (pos + 1 + 1 + (escapeStr k).length + 1 + 1) = pos + 1 + 1 + (escapeStr k).length + 1 + 1 :=
      skipWhitespace_no_skip (lt_length_of_drop_cons (by rw [hdv, hcv]; rfl))
        (by rw [charAt_of_drop_cons (by rw [hdv, hcv]; rfl)]; exact hcsv)
    have hpv : parse g input (pos + 1 + 1 + (escapeStr k).length + 1 + 1) = .ok (v, pos + 1 + 1 + (escapeStr k).length + 1 + 1 + (render v).length) :=
      parse_render_at v hsv input (renderObjTail rest' ++ '\x7d' :: tail)
        (pos + 1 + 1 + (escapeStr k).length + 1 + 1) g (by omega) hdv
    have hdrest : input.drop (pos + 1 + 1 + (escapeStr k).length + 1 + 1 + (render v).length)
        = renderObjTail rest' ++ '\x7d' :: tail := by
      rw [drop_add, hdv, List.drop_left]
    have hins : btreeInsert k v acc = acc ++ ((k, v) :: []) :=
      btreeInsert_append_of_lt k v acc (fun e he =>
        hacc e he (k, v) (List.mem_cons_self _ _))
    have hrest := objLoop_render_at rest' hsrest input tail stop
      (pos + 1 + 1 + (escapeStr k).length + 1 + 1 + (render v).length) g (acc ++ ((k, v) :: []))
      (by omega) hdrest
      (by
        rw [hstop]
        simp only [List.length_append, List.length_cons]
        omega)
      (by
        intro e he r hr
        rcases List.mem_append.mp he with he | he
        · exact hacc e he r (List.mem_cons_of_mem _ hr)
        · simp only [List.mem_singleton, List.mem_cons, List.not_mem_nil, or_false] at he
          subst he
          exact safeObj_head_lt rest' k v hsafe' r hr)
    rw [objLoop, if_pos (by
      rw [hstop]
      simp only [List.length_append, List.length_cons]
      omega)]
    simp only [hsw, hkey, hswk, hreqc, hswv, hpv, hins]
    rw [hrest]
    simp

end



/-- C3 counterexample: the one-element array of the unsigned number 1 — a
tree with no floats at all — renders as `[1]`, whose parse fails with
`InvalidNumber` (the number scan captures the closing bracket into the
substring `1]`), so `parse(render(v)) = v` fails as stated. -/
theorem c3_roundtrip_fails_cex :
    jsonParse (render (.arr [.number (.uint 1)]))
      = .err (.invalidNumber .parseIntError) ∧
    jsonParse (render (.arr [.number (.uint 1)]))
      ≠ .ok (.arr [.number (.uint 1)]) := by decide

/-- C3 amended: `parse(render(v)) = v` holds for every tree `v` that
contains no Number values (numbers inside containers capture their
terminating character, and float rendering can drop the decimal point),
whose strings and object keys are ASCII without backslashes (the scan
keeps escape-active across consecutive backslashes) and without the four
container delimiters (the pre-scan counts them even inside string
literals), and whose object entry lists are canonically sorted and
duplicate-free — the `safeVal` predicate. -/
theorem c3_roundtrip_on_safe_trees (v : Value) (hsafe : safeVal v = true) :
    jsonParse (render v) = .ok v := by
  have hdrop : (render v).drop 0 = render v ++ [] := by simp
  have hfuel : sizeVal v ≤ 2 * (render v).length + 4 :=
    le_trans (sizeVal_le v hsafe) (by omega)
  have h := parse_render_at v hsafe (render v) [] 0 (2 * (render v).length + 4) hfuel hdrop
  rw [jsonParse, h]

/-- C3 amended, witnessed on a two-entry object holding a nested array. -/
theorem c3_roundtrip_on_safe_trees_witness :
    jsonParse (render (.obj [(('a') :: [], .arr [.str (('x') :: [] ), .null]),
                            (('b') :: [], .bool true)]))
      = .ok (.obj [(('a') :: [], .arr [.str (('x') :: []), .null]),
                   (('b') :: [], .bool true)]) :=
  c3_roundtrip_on_safe_trees _ (by decide)

end HalfStack
